import Mathlib

/-!
# Verification of the compressed-batch decompression engine

A shallow embedding of tsl/src/nodes/decompress_chunk/compressed_batch.c
(TimescaleDB).  Each logical "batch" packs many rows into one compressed
physical row; the code materializes rows one at a time, applying a
vectorized-qual bitmap and a row-wise filter, with forward and reverse
traversal.

Modelling conventions:
* Postgres Datum values are Nat (64-bit words; narrowing is explicit).
* Fatal elog/ereport/Ensure errors are Except.error with the C message.
* The per-value decompression iterator (an external codec collaborator,
  specified in the repository spec as pull() -> {value, is_null, is_done})
  is a list of (value, is_null) pairs plus a cursor.
* The output TupleTableSlot is a pair of functions attr -> value /
  attr -> isnull plus the TTS_EMPTY flag; tts_values[attr] writes are
  Function.update.  AttrNumberGetAttrOffset(n) = n - 1.
* Memory contexts are not modelled (bulk reset has no observable content).
-/

namespace CompressedBatch

/-- Result of one pull from a decompression iterator
(DecompressResult in the C code). -/
structure DecompressResult where
  val : Nat
  is_null : Bool
  is_done : Bool
deriving Repr, DecidableEq

/-- Row-by-row decompression iterator: the external codec collaborator.
The data list is the full sequence the codec would yield (already reversed
by the codec when the scan is reverse); pos is how many values were
consumed so far. -/
structure DecompressionIterator where
  data : List (Nat × Bool)
  pos : Nat
deriving Repr, DecidableEq

/-- One pull (try_next): yields the next value, or is_done when the
sequence is exhausted.  Pulling an exhausted iterator keeps returning
is_done and does not move it. -/
def DecompressionIterator.try_next (it : DecompressionIterator) :
    DecompressResult × DecompressionIterator :=
  match it.data[it.pos]? with
  | some (v, n) => (⟨v, n, false⟩, ⟨it.data, it.pos + 1⟩)
  | none => (⟨0, false, true⟩, it)

/-- Bulk-decoded (arrow-style) column data: length, the values buffer as
raw bytes (buffers[1]) and the validity bitmap (buffers[0]). -/
structure ArrowArrayData where
  length : Nat
  values : List Nat
  validity : List Bool
deriving Repr, DecidableEq

/-- arrow_row_is_valid: bit row of the validity bitmap; bits outside the
materialized bitmap read as valid (the C code never reads them). -/
def arrow_row_is_valid (validity : List Bool) (row : Nat) : Bool :=
  validity.getD row true

/-- Per-column per-batch state (CompressedColumnValues in the C code).
iterator = some means row-by-row form; otherwise arrow = some means bulk
form; both none means the column has a per-batch constant (default)
value already stored in the output slot. -/
structure CompressedColumnValues where
  iterator : Option DecompressionIterator
  arrow : Option ArrowArrayData
  value_bytes : Int
  output_attno : Nat
deriving Repr, DecidableEq

instance : Inhabited CompressedColumnValues :=
  ⟨⟨none, none, -1, 0⟩⟩

/-- The reusable virtual output slot (decompressed_scan_slot):
per-attribute values and null flags plus the TTS_EMPTY flag. -/
@[ext]
structure TupleSlot where
  vals : Nat → Nat
  isnull : Nat → Bool
  empty : Bool

/-- ExecStoreVirtualTuple / ExecCopySlot target: the slot marked
non-empty. -/
def slot_stored (s : TupleSlot) : TupleSlot :=
  { s with empty := false }

/-- ExecClearTuple: mark the slot empty (contents are not wiped). -/
def slot_cleared (s : TupleSlot) : TupleSlot :=
  { s with empty := true }

/-- Per-batch state (DecompressBatchState). -/
structure DecompressBatchState where
  total_batch_rows : Nat
  next_batch_row : Nat
  vector_qual_result : Option (List Bool)
  compressed_columns : List CompressedColumnValues
  decompressed_scan_slot : TupleSlot

/-- Column kinds of DecompressChunkColumnDescription. -/
inductive ColumnKind where
  | compressed_column
  | segmentby_column
  | count_column
  | sequence_num_column
deriving Repr, DecidableEq

/-- The Postgres column types handled by make_single_value_arrow; other
stands for every type that function rejects. -/
inductive PgType where
  | int8
  | int4
  | int2
  | float8
  | float4
  | timestamptz
  | timestamp
  | date
  | other
deriving Repr, DecidableEq

/-- get_typlen for the modelled types (-1 for the rest). -/
def PgType.typlen : PgType → Int
  | .int8 => 8
  | .int4 => 4
  | .int2 => 2
  | .float8 => 8
  | .float4 => 4
  | .timestamptz => 8
  | .timestamp => 8
  | .date => 4
  | .other => -1

/-- Static per-column description (DecompressChunkColumnDescription). -/
structure DecompressChunkColumnDescription where
  type : ColumnKind
  output_attno : Nat
  typid : PgType
  bulk_decompression_supported : Bool
deriving Repr, DecidableEq

instance : Inhabited DecompressChunkColumnDescription :=
  ⟨⟨.compressed_column, 0, .other, false⟩⟩

/-- One pushed-down vectorized qual: Var (by output_attno) OP Const. -/
structure VectorQual where
  varattno : Nat
  opcode : Nat
  constvalue : Nat
  constisnull : Bool

/-- Per-scan state (DecompressChunkState): static configuration shared by
all batches.  The vectorized predicate registry
(get_vector_const_predicate) and the generic row filter (ExecQual) are
external collaborators passed in as functions; getmissingattr is the
per-attribute default value of the decompressed tuple descriptor. -/
structure DecompressChunkState where
  reverse : Bool
  enable_bulk_decompression : Bool
  template_columns : List DecompressChunkColumnDescription
  vectorized_quals : List VectorQual
  get_vector_const_predicate :
    Nat → Option (ArrowArrayData → Nat → List Bool → List Bool)
  qual : Option (TupleSlot → Bool)
  getmissingattr : Nat → Nat × Bool

/-! ## make_single_value_arrow -/

/-- Little-endian byte list of the low w bytes of v. -/
def leBytes (w : Nat) (v : Nat) : List Nat :=
  (List.range w).map (fun k => v / 256 ^ k % 256)

/-- Create a single-value ArrowArray from a Datum
(make_single_value_arrow).  The 8-byte values buffer is zero-initialized;
the typed value is written little-endian at its start; the validity bit is
set unless the value is null.  Unexpected types are an error. -/
def make_single_value_arrow (pgtype : PgType) (datum : Nat) (isnull : Bool) :
    Except String ArrowArrayData :=
  if isnull then
    .ok ⟨1, List.replicate 8 0, [false]⟩
  else
    match pgtype with
    | .other => .error "unexpected column type"
    | t =>
        let w := t.typlen.toNat
        .ok ⟨1, leBytes w (datum % 256 ^ w) ++ List.replicate (8 - w) 0, [true]⟩

/-! ## apply_vector_quals -/

/-- Evaluate one vectorized qual against the batch, updating the result
bitmap (one loop iteration of apply_vector_quals).  columns / slot / total
are the corresponding fields of the batch state; bm is the accumulator
bitmap the predicate result is ANDed into. -/
def apply_one_vector_qual (chunk : DecompressChunkState)
    (columns : List CompressedColumnValues) (slot : TupleSlot) (total : Nat)
    (bm : List Bool) (q : VectorQual) : Except String (List Bool) :=
  match chunk.template_columns.findIdx?
      (fun d => d.output_attno = q.varattno) with
  | none => .error "decompressed column not found in batch"
  | some column_index =>
    let column_description := chunk.template_columns.getD column_index default
    if column_description.type ≠ ColumnKind.compressed_column then
      .error "only compressed columns are supported in vectorized quals"
    else
      let column_values := columns.getD column_index default
      if column_values.iterator ≠ none then
        .error "only arrow columns are supported in vectorized quals"
      else
        match column_values.arrow with
        | none =>
          -- The compressed column had a default value: build a
          -- single-value ArrowArray from the value saved in the
          -- decompressed scan slot and apply the predicate to it alone.
          let attr := q.varattno - 1
          match make_single_value_arrow column_description.typid
              (slot.vals attr) (slot.isnull attr) with
          | .error e => .error e
          | .ok vector =>
            match chunk.get_vector_const_predicate q.opcode with
            | none => .error "vectorized predicate not found for postgres predicate"
            | some predicate =>
              if q.constisnull then
                .error "vectorized predicate called for a null value"
              else
                let default_value_predicate_result :=
                  predicate vector q.constvalue [true]
                if default_value_predicate_result.getD 0 false then
                  .ok bm
                else
                  -- The default value did not pass: the entire batch
                  -- does not pass.
                  .ok (List.replicate total false)
        | some vector =>
          match chunk.get_vector_const_predicate q.opcode with
          | none => .error "vectorized predicate not found for postgres predicate"
          | some predicate =>
            if q.constisnull then
              .error "vectorized predicate called for a null value"
            else
              .ok (predicate vector q.constvalue bm)

/-- Fold of apply_one_vector_qual over the qual list. -/
def apply_quals_fold (chunk : DecompressChunkState)
    (columns : List CompressedColumnValues) (slot : TupleSlot) (total : Nat) :
    List Bool → List VectorQual → Except String (List Bool)
  | bm, [] => .ok bm
  | bm, q :: qs =>
    match apply_one_vector_qual chunk columns slot total bm q with
    | .error e => .error e
    | .ok bm' => apply_quals_fold chunk columns slot total bm' qs

/-- apply_vector_quals: with no vectorized quals, leave the batch alone
(the bitmap stays NULL, meaning all rows pass); otherwise start from an
all-ones bitmap sized to the batch and AND every qual into it. -/
def apply_vector_quals (chunk : DecompressChunkState)
    (bs : DecompressBatchState) : Except String DecompressBatchState :=
  if chunk.vectorized_quals.isEmpty then
    .ok bs
  else
    match apply_quals_fold chunk bs.compressed_columns
        bs.decompressed_scan_slot bs.total_batch_rows
        (List.replicate bs.total_batch_rows true) chunk.vectorized_quals with
    | .error e => .error e
    | .ok bm => .ok { bs with vector_qual_result := some bm }

/-! ## compressed_batch_set_compressed_tuple -/

/-- The per-column content of the incoming compressed tuple (what
slot_getattr yields for each template column, decoded by the external
codec where applicable):
* nulldatum: the stored value is SQL NULL (compressed column with a
  default value);
* compressed: a compressed blob; rows is the logical forward value
  sequence the row-by-row codec yields, bulk is the ArrowArray
  decompress_all yields;
* segment: a segmentby value; countdatum: the count column value;
* seqnum: the sequence-number column (ignored). -/
inductive ColumnDatum where
  | nulldatum
  | compressed (rows : List (Nat × Bool)) (bulk : ArrowArrayData)
  | segment (value : Nat) (isnull : Bool)
  | countdatum (c : Int)
  | seqnum

/-- Set up one column of the new batch (one iteration of the column loop
in compressed_batch_set_compressed_tuple).  Threads the established batch
row count and the output slot; yields the CompressedColumnValues for
compressed columns. -/
def setup_one_column (chunk : DecompressChunkState) (total : Nat)
    (slot : TupleSlot) (desc : DecompressChunkColumnDescription)
    (input : ColumnDatum) :
    Except String (Nat × TupleSlot × Option CompressedColumnValues) :=
  match desc.type, input with
  | .compressed_column, .nulldatum =>
    -- The column has a default value for the entire batch; save it into
    -- the decompressed scan slot now.
    let attr := desc.output_attno - 1
    let vm := chunk.getmissingattr attr
    .ok (total,
         ⟨Function.update slot.vals attr vm.1,
          Function.update slot.isnull attr vm.2, slot.empty⟩,
         some ⟨none, none, -1, desc.output_attno⟩)
  | .compressed_column, .compressed rows bulk =>
    if chunk.enable_bulk_decompression && desc.bulk_decompression_supported then
      -- Bulk decompression: cross-check the arrow length against the
      -- established batch row count.
      if total = 0 then
        .ok (bulk.length, slot,
             some ⟨none, some bulk, desc.typid.typlen, desc.output_attno⟩)
      else if total ≠ bulk.length then
        .error "compressed column out of sync with batch counter"
      else
        .ok (total, slot,
             some ⟨none, some bulk, desc.typid.typlen, desc.output_attno⟩)
    else
      -- Fall back to row-by-row decompression; the codec yields the
      -- rows reversed when the scan is reverse.
      let data := if chunk.reverse then rows.reverse else rows
      .ok (total, slot, some ⟨some ⟨data, 0⟩, none, -1, desc.output_attno⟩)
  | .segmentby_column, .segment v isnull =>
    let attr := desc.output_attno - 1
    .ok (total,
         ⟨Function.update slot.vals attr v,
          Function.update slot.isnull attr isnull, slot.empty⟩, none)
  | .count_column, .countdatum c =>
    if c ≤ 0 then
      .error "the compressed data is corrupt: got a segment with length <= 0"
    else if total = 0 then
      .ok (c.toNat, slot, none)
    else if (total : Int) ≠ c then
      .error "compressed column out of sync with batch counter"
    else
      .ok (total, slot, none)
  | .sequence_num_column, .seqnum =>
    .ok (total, slot, none)
  | _, _ => .error "column datum does not match column description"

/-- The column loop of compressed_batch_set_compressed_tuple. -/
def setup_columns (chunk : DecompressChunkState) (total : Nat)
    (slot : TupleSlot) :
    List (DecompressChunkColumnDescription × ColumnDatum) →
    Except String (Nat × TupleSlot × List CompressedColumnValues)
  | [] => .ok (total, slot, [])
  | (desc, input) :: rest =>
    match setup_one_column chunk total slot desc input with
    | .error e => .error e
    | .ok (total', slot', cv?) =>
      match setup_columns chunk total' slot' rest with
      | .error e => .error e
      | .ok (total'', slot'', cvs) => .ok (total'', slot'', cv?.toList ++ cvs)

/-- Initialize the batch state with a new compressed tuple
(compressed_batch_set_compressed_tuple): reset the row counters, rebuild
every compressed column's source from the new tuple, save segmentby and
default values into the output slot, then compute the vectorized quals.
inputs holds the new tuple's per-column contents, aligned with
chunk.template_columns. -/
def compressed_batch_set_compressed_tuple (chunk : DecompressChunkState)
    (bs : DecompressBatchState) (inputs : List ColumnDatum) :
    Except String DecompressBatchState :=
  match setup_columns chunk 0 bs.decompressed_scan_slot
      (chunk.template_columns.zip inputs) with
  | .error e => .error e
  | .ok (total, slot, cols) =>
    apply_vector_quals chunk
      { total_batch_rows := total
        next_batch_row := 0
        vector_qual_result := bs.vector_qual_result
        compressed_columns := cols
        decompressed_scan_slot := slot }

/-! ## compressed_batch_make_next_tuple -/

/-- Read 8 bytes little-endian at offset off (the unaligned widest-width
memcpy read); bytes past the end of the buffer read as zero. -/
def readLE : Nat → List Nat → Nat → Nat
  | 0, _, _ => 0
  | w + 1, buf, off => buf.getD off 0 + 256 * readLE w buf (off + 1)

/-- Materialize one column of the current row into the slot (one
iteration of the column loop in compressed_batch_make_next_tuple).
Iterator-form columns pull one value (is_done here is fatal); bulk-form
columns read 8 bytes at value_bytes * arrow_row and the validity bit;
default columns are already in the slot. -/
def make_tuple_column (arrow_row : Nat) (slot : TupleSlot)
    (cv : CompressedColumnValues) :
    Except String (TupleSlot × CompressedColumnValues) :=
  match cv.iterator with
  | some it =>
    let r := it.try_next
    if r.1.is_done then
      .error "compressed column out of sync with batch counter"
    else
      let attr := cv.output_attno - 1
      .ok (⟨Function.update slot.vals attr r.1.val,
            Function.update slot.isnull attr r.1.is_null, slot.empty⟩,
           { cv with iterator := some r.2 })
  | none =>
    match cv.arrow with
    | some a =>
      let attr := cv.output_attno - 1
      let value := readLE 8 a.values (cv.value_bytes.toNat * arrow_row)
      .ok (⟨Function.update slot.vals attr value,
            Function.update slot.isnull attr
              (!arrow_row_is_valid a.validity arrow_row), slot.empty⟩, cv)
    | none => .ok (slot, cv)

/-- The column loop of compressed_batch_make_next_tuple. -/
def make_tuple_columns (arrow_row : Nat) (slot : TupleSlot) :
    List CompressedColumnValues →
    Except String (TupleSlot × List CompressedColumnValues)
  | [] => .ok (slot, [])
  | cv :: rest =>
    match make_tuple_column arrow_row slot cv with
    | .error e => .error e
    | .ok (slot', cv') =>
      match make_tuple_columns arrow_row slot' rest with
      | .error e => .error e
      | .ok (slot'', rest') => .ok (slot'', cv' :: rest')

/-- The logical index used for bulk-form random access and for the
vectorized-qual bitmap: reversed when the scan is reverse. -/
def arrowRowOf (reverse : Bool) (total output_row : Nat) : Nat :=
  if reverse then total - 1 - output_row else output_row

/-- Construct the next tuple in the decompressed scan slot
(compressed_batch_make_next_tuple).  Does not check the quals.  Returns
the updated slot (stored, i.e. non-empty) and columns. -/
def compressed_batch_make_next_tuple (chunk : DecompressChunkState)
    (bs : DecompressBatchState) :
    Except String (TupleSlot × List CompressedColumnValues) :=
  let arrow_row := arrowRowOf chunk.reverse bs.total_batch_rows bs.next_batch_row
  match make_tuple_columns arrow_row bs.decompressed_scan_slot
      bs.compressed_columns with
  | .error e => .error e
  | .ok (slot, cols) =>
    -- ExecStoreVirtualTuple if the slot was empty.
    .ok (if slot.empty then { slot with empty := false } else slot, cols)

/-! ## compressed_batch_vector_qual / compressed_batch_postgres_qual -/

/-- compressed_batch_vector_qual: bit arrow_row of the vectorized-qual
bitmap; a missing bitmap means all rows pass. -/
def compressed_batch_vector_qual (chunk : DecompressChunkState)
    (bs : DecompressBatchState) : Bool :=
  let arrow_row := arrowRowOf chunk.reverse bs.total_batch_rows bs.next_batch_row
  match bs.vector_qual_result with
  | none => true
  | some bm => arrow_row_is_valid bm arrow_row

/-- compressed_batch_postgres_qual: the opaque row filter (ExecQual) on
the materialized row; no filter means the row passes. -/
def compressed_batch_postgres_qual (chunk : DecompressChunkState)
    (bs : DecompressBatchState) : Bool :=
  match chunk.qual with
  | none => true
  | some q => q bs.decompressed_scan_slot

/-! ## compressed_batch_advance -/

/-- Advance the iterated compressed columns past a row that failed the
vectorized quals, discarding the pulled values (the skip branch of
compressed_batch_advance).  The result of try_next is not inspected. -/
def skip_row_columns : List CompressedColumnValues → List CompressedColumnValues
  | [] => []
  | cv :: rest =>
    (match cv.iterator with
     | some it => { cv with iterator := some it.try_next.2 }
     | none => cv) :: skip_row_columns rest

/-- End-of-batch check: every row-by-row column must report is_done now
(the epilogue of compressed_batch_advance). -/
def check_iterators_done : List CompressedColumnValues →
    Except String (List CompressedColumnValues)
  | [] => .ok []
  | cv :: rest =>
    match cv.iterator with
    | some it =>
      let r := it.try_next
      if !r.1.is_done then
        .error "compressed column out of sync with batch counter"
      else
        match check_iterators_done rest with
        | .error e => .error e
        | .ok rest' => .ok ({ cv with iterator := some r.2 } :: rest')
    | none =>
      match check_iterators_done rest with
      | .error e => .error e
      | .ok rest' => .ok (cv :: rest')

/-- The end-of-batch epilogue of compressed_batch_advance: verify the
row-by-row columns have ended, then clear the output slot. -/
def advance_exhaust (bs : DecompressBatchState) :
    Except String DecompressBatchState :=
  match check_iterators_done bs.compressed_columns with
  | .error e => .error e
  | .ok cols =>
    .ok { bs with
          compressed_columns := cols
          decompressed_scan_slot := slot_cleared bs.decompressed_scan_slot }

/-- The row loop of compressed_batch_advance.  fuel bounds the number of
remaining loop iterations; compressed_batch_advance passes
total_batch_rows - next_batch_row, which makes the fuel check equivalent
to the loop condition next_batch_row < total_batch_rows. -/
def compressed_batch_advance_loop (chunk : DecompressChunkState) :
    Nat → DecompressBatchState → Except String DecompressBatchState
  | 0, bs => advance_exhaust bs
  | fuel + 1, bs =>
    if bs.next_batch_row < bs.total_batch_rows then
      if !compressed_batch_vector_qual chunk bs then
        -- Row filtered out by the vectorized quals: pull and discard one
        -- value from each row-by-row column to keep the cursors in sync.
        compressed_batch_advance_loop chunk fuel
          { bs with
            compressed_columns := skip_row_columns bs.compressed_columns
            next_batch_row := bs.next_batch_row + 1 }
      else
        match compressed_batch_make_next_tuple chunk bs with
        | .error e => .error e
        | .ok (slot, cols) =>
          let bs' := { bs with
                       decompressed_scan_slot := slot
                       compressed_columns := cols }
          if compressed_batch_postgres_qual chunk bs' then
            -- The tuple passed the quals: stop one past this row.
            .ok { bs' with next_batch_row := bs.next_batch_row + 1 }
          else
            compressed_batch_advance_loop chunk fuel
              { bs' with next_batch_row := bs.next_batch_row + 1 }
    else
      advance_exhaust bs

/-- Decompress the next tuple from the batch
(compressed_batch_advance).  The result is stored in the decompressed
scan slot, which is left empty when the batch is entirely processed. -/
def compressed_batch_advance (chunk : DecompressChunkState)
    (bs : DecompressBatchState) : Except String DecompressBatchState :=
  compressed_batch_advance_loop chunk
    (bs.total_batch_rows - bs.next_batch_row) bs

/-! ## compressed_batch_save_first_tuple -/

/-- Save the very first tuple of the batch into the given slot whether or
not it passes the quals, then position the batch on its first passing
tuple (compressed_batch_save_first_tuple).  Returns the updated batch
state and the saved copy (ExecCopySlot target). -/
def compressed_batch_save_first_tuple (chunk : DecompressChunkState)
    (bs : DecompressBatchState) :
    Except String (DecompressBatchState × TupleSlot) :=
  match compressed_batch_make_next_tuple chunk bs with
  | .error e => .error e
  | .ok (slot, cols) =>
    let bs1 := { bs with
                 decompressed_scan_slot := slot
                 compressed_columns := cols }
    let first_tuple := slot_stored bs1.decompressed_scan_slot
    let qual_passed := compressed_batch_vector_qual chunk bs1 &&
      compressed_batch_postgres_qual chunk bs1
    let bs2 := { bs1 with next_batch_row := bs1.next_batch_row + 1 }
    if !qual_passed then
      match compressed_batch_advance chunk bs2 with
      | .error e => .error e
      | .ok bs3 => .ok (bs3, first_tuple)
    else
      .ok (bs2, first_tuple)

/-! ## Whole-batch traversal (the outer iteration protocol) -/

/-- Repeatedly advance and collect every emitted row until the batch is
exhausted (what the outer per-chunk driver does with one batch). -/
def collect_rows (chunk : DecompressChunkState) :
    Nat → DecompressBatchState → Except String (List TupleSlot)
  | 0, _ => .ok []
  | fuel + 1, bs =>
    match compressed_batch_advance chunk bs with
    | .error e => .error e
    | .ok bs' =>
      if bs'.decompressed_scan_slot.empty then
        .ok []
      else
        match collect_rows chunk fuel bs' with
        | .error e => .error e
        | .ok rest => .ok (bs'.decompressed_scan_slot :: rest)

/-- Repeatedly advance until the batch is exhausted and return the final
batch state. -/
def advance_until_empty (chunk : DecompressChunkState) :
    Nat → DecompressBatchState → Except String DecompressBatchState
  | 0, bs => .ok bs
  | fuel + 1, bs =>
    match compressed_batch_advance chunk bs with
    | .error e => .error e
    | .ok bs' =>
      if bs'.decompressed_scan_slot.empty then
        .ok bs'
      else
        advance_until_empty chunk fuel bs'

/-! ## Declarative description of a batch traversal

The following definitions give a direct, cursor-free description of what
the advance loop computes: the value row j materializes for each column,
whether row j passes both filters, and the list of passing rows.  The
theorems below relate compressed_batch_advance to them. -/

/-- Write row j of one column into the slot, reading the iterator data by
absolute index (a synchronized iterator at cursor j yields exactly
element j). -/
def column_row_write (reverse : Bool) (total j : Nat)
    (cv : CompressedColumnValues) (slot : TupleSlot) : TupleSlot :=
  match cv.iterator with
  | some it =>
    match it.data[j]? with
    | some vn =>
      let attr := cv.output_attno - 1
      ⟨Function.update slot.vals attr vn.1,
       Function.update slot.isnull attr vn.2, slot.empty⟩
    | none => slot
  | none =>
    match cv.arrow with
    | some a =>
      let attr := cv.output_attno - 1
      let r := arrowRowOf reverse total j
      ⟨Function.update slot.vals attr (readLE 8 a.values (cv.value_bytes.toNat * r)),
       Function.update slot.isnull attr (!arrow_row_is_valid a.validity r),
       slot.empty⟩
    | none => slot

/-- The slot contents after materializing row j of every column. -/
def mat_row (reverse : Bool) (total j : Nat)
    (cols : List CompressedColumnValues) (slot : TupleSlot) : TupleSlot :=
  cols.foldl (fun s cv => column_row_write reverse total j cv s) slot

/-- Bit j of the vectorized-qual bitmap (in logical row order). -/
def vec_bit (vqr : Option (List Bool)) (reverse : Bool) (total j : Nat) : Bool :=
  match vqr with
  | none => true
  | some bm => arrow_row_is_valid bm (arrowRowOf reverse total j)

/-- Whether row j passes both the vectorized-qual bitmap and the row
filter applied to its materialized contents. -/
def row_passes (chunk : DecompressChunkState) (total : Nat)
    (vqr : Option (List Bool)) (cols : List CompressedColumnValues)
    (slot : TupleSlot) (j : Nat) : Bool :=
  vec_bit vqr chunk.reverse total j &&
    (match chunk.qual with
     | none => true
     | some q => q (slot_stored (mat_row chunk.reverse total j cols slot)))

/-- The rows in [c, c + k) that pass both filters, in order. -/
def passing_rows (chunk : DecompressChunkState) (total : Nat)
    (vqr : Option (List Bool)) (cols : List CompressedColumnValues)
    (slot : TupleSlot) : Nat → Nat → List Nat
  | _, 0 => []
  | c, k + 1 =>
    if row_passes chunk total vqr cols slot c then
      c :: passing_rows chunk total vqr cols slot (c + 1) k
    else
      passing_rows chunk total vqr cols slot (c + 1) k

/-- The columns with every row-by-row iterator positioned at row p. -/
def columns_at_row (cols : List CompressedColumnValues) (p : Nat) :
    List CompressedColumnValues :=
  cols.map (fun cv =>
    match cv.iterator with
    | some it => { cv with iterator := some ⟨it.data, p⟩ }
    | none => cv)

/-- Well-formedness of the per-column sources at cursor c: every
row-by-row iterator holds exactly the batch's declared number of values
and is positioned at the cursor. -/
def colsWF (total c : Nat) (cols : List CompressedColumnValues) : Bool :=
  cols.all (fun cv =>
    match cv.iterator with
    | some it => it.data.length = total && it.pos = c
    | none => true)

/-- The iterator data of every row-by-row column reversed (what the codec
yields for the same compressed blob when the scan is reverse). -/
def reverse_columns (cols : List CompressedColumnValues) :
    List CompressedColumnValues :=
  cols.map (fun cv =>
    match cv.iterator with
    | some it => { cv with iterator := some ⟨it.data.reverse, it.pos⟩ }
    | none => cv)

/-! ## Basic lemmas about row materialization -/

/-- Whether materializing row j writes anything for this column. -/
def col_writes (j : Nat) (cv : CompressedColumnValues) : Bool :=
  match cv.iterator with
  | some it => decide (j < it.data.length)
  | none => cv.arrow.isSome

/-- Whether some column of cols writes attribute slot position a when
materializing row j. -/
def writes_attr (cols : List CompressedColumnValues) (j a : Nat) : Prop :=
  ∃ cv ∈ cols, col_writes j cv = true ∧ cv.output_attno - 1 = a

/-! ## Concrete fixtures used to exercise the definitions -/

/-- An empty all-null output slot. -/
def slotW : TupleSlot := ⟨fun _ => 0, fun _ => true, true⟩

/-- A stored slot holding 7 in every attribute. -/
def slotV : TupleSlot := ⟨fun _ => 7, fun _ => false, false⟩

def rowsW : List (Nat × Bool) := [(5, false), (6, false), (7, false)]

def colsW : List CompressedColumnValues := [⟨some ⟨rowsW, 0⟩, none, -1, 1⟩]

/-- A forward scan with one row-by-row compressed column and a count
column, no vectorized quals, and the row filter value > 5. -/
def chunkW : DecompressChunkState :=
  ⟨false, false,
   [⟨.compressed_column, 1, .int8, false⟩, ⟨.count_column, 2, .int4, false⟩],
   [], fun _ => none, some (fun s => decide (5 < s.vals 0)), fun _ => (0, true)⟩

/-- The same scan with bulk decompression enabled. -/
def chunkB : DecompressChunkState :=
  ⟨false, true,
   [⟨.compressed_column, 1, .int8, true⟩, ⟨.count_column, 2, .int4, false⟩],
   [], fun _ => none, none, fun _ => (0, true)⟩

def inputsW : List ColumnDatum := [.compressed rowsW ⟨3, [], []⟩, .countdatum 3]

def vqrW : Option (List Bool) := some [false, true, true]

/-- A vectorized predicate that accepts everything. -/
def predV : ArrowArrayData → Nat → List Bool → List Bool := fun _ _ bm => bm

/-- A scan whose predicate registry resolves only opcode 1. -/
def chunkV : DecompressChunkState :=
  ⟨false, false,
   [⟨.compressed_column, 1, .int8, false⟩, ⟨.count_column, 2, .int4, false⟩],
   [], fun op => if op = 1 then some predV else none, none, fun _ => (0, true)⟩

def vV : ArrowArrayData := ⟨1, [7, 0, 0, 0, 0, 0, 0, 0], [true]⟩

/-- One compressed column with a default value (no iterator, no arrow). -/
def columnsV : List CompressedColumnValues := [⟨none, none, -1, 1⟩]

def arrowA : ArrowArrayData :=
  ⟨3, [1, 0, 0, 0, 2, 0, 0, 0, 3, 0, 0, 0, 0, 0, 0, 0, 0, 0, 0, 0],
   [true, false, true]⟩

/-- One bulk-form compressed column of width 4. -/
def columnsA : List CompressedColumnValues := [⟨none, some arrowA, 4, 1⟩]

/-- A trivial scan used for the desync scenario. -/
def chunkX : DecompressChunkState :=
  ⟨false, false, [], [], fun _ => none, none, fun _ => (0, true)⟩

/-- One row-by-row column whose iterator is empty: desynchronized with
any batch of more than zero rows. -/
def colsX : List CompressedColumnValues := [⟨some ⟨[], 0⟩, none, -1, 1⟩]

/-- A two-row batch whose bitmap excludes every row, over the
desynchronized column. -/
def bsX : DecompressBatchState := ⟨2, 0, some [false, false], colsX, slotW⟩

/-- Length part of column well-formedness: every row-by-row iterator
holds exactly total values. -/
def colsLenWF (total : Nat) (cols : List CompressedColumnValues) : Prop :=
  ∀ cv ∈ cols, ∀ it, cv.iterator = some it → it.data.length = total

/-- Position part of column well-formedness: every row-by-row iterator is
positioned at the cursor c. -/
def colsPosWF (c : Nat) (cols : List CompressedColumnValues) : Prop :=
  ∀ cv ∈ cols, ∀ it, cv.iterator = some it → it.pos = c

theorem column_row_write_empty (rev : Bool) (total j : Nat)
    (cv : CompressedColumnValues) (s : TupleSlot) :
    (column_row_write rev total j cv s).empty = s.empty := by
  unfold column_row_write
  rcases cv with ⟨it, a, vb, attno⟩
  cases it with
  | some it => cases h : it.data[j]? <;> simp [h]
  | none => cases a <;> simp

theorem mat_row_empty (rev : Bool) (total j : Nat)
    (cols : List CompressedColumnValues) (s : TupleSlot) :
    (mat_row rev total j cols s).empty = s.empty := by
  induction cols generalizing s with
  | nil => rfl
  | cons cv rest ih =>
    simp only [mat_row, List.foldl_cons] at *
    rw [ih, column_row_write_empty]

theorem column_row_write_set_empty (rev : Bool) (total j : Nat)
    (cv : CompressedColumnValues) (s : TupleSlot) (e : Bool) :
    column_row_write rev total j cv { s with empty := e } =
      { column_row_write rev total j cv s with empty := e } := by
  unfold column_row_write
  rcases cv with ⟨it, a, vb, attno⟩
  cases it with
  | some it => cases h : it.data[j]? <;> simp [h]
  | none => cases a <;> simp

theorem mat_row_set_empty (rev : Bool) (total j : Nat)
    (cols : List CompressedColumnValues) (s : TupleSlot) (e : Bool) :
    mat_row rev total j cols { s with empty := e } =
      { mat_row rev total j cols s with empty := e } := by
  induction cols generalizing s with
  | nil => rfl
  | cons cv rest ih =>
    simp only [mat_row, List.foldl_cons] at *
    rw [column_row_write_set_empty, ih]

/-- A column write at a different attribute leaves a slot position
unchanged. -/
theorem column_row_write_ne (rev : Bool) (total j : Nat)
    (cv : CompressedColumnValues) (s : TupleSlot) (a : Nat)
    (ha : cv.output_attno - 1 ≠ a) :
    (column_row_write rev total j cv s).vals a = s.vals a ∧
      (column_row_write rev total j cv s).isnull a = s.isnull a := by
  unfold column_row_write
  rcases cv with ⟨it, ar, vb, attno⟩
  simp only at ha
  cases it with
  | some it =>
    cases hvn : it.data[j]? with
    | some vn => simp [hvn, Function.update_noteq (Ne.symm ha)]
    | none => simp [hvn]
  | none =>
    cases ar with
    | some a' => simp [Function.update_noteq (Ne.symm ha)]
    | none => simp

/-- A column that does not write at row j leaves the slot unchanged. -/
theorem column_row_write_nowrite (rev : Bool) (total j : Nat)
    (cv : CompressedColumnValues) (s : TupleSlot)
    (hw : ¬ col_writes j cv = true) :
    column_row_write rev total j cv s = s := by
  unfold column_row_write
  unfold col_writes at hw
  rcases cv with ⟨it, ar, vb, attno⟩
  cases it with
  | some it =>
    simp only [decide_eq_true_eq] at hw
    have hvn : it.data[j]? = none := by
      rw [List.getElem?_eq_none_iff]
      omega
    simp [hvn]
  | none =>
    cases ar with
    | some a' => simp at hw
    | none => simp

/-- A column that writes at row j stores the same value and null flag on
any two base slots. -/
theorem column_row_write_write (rev : Bool) (total j : Nat)
    (cv : CompressedColumnValues) (s t : TupleSlot)
    (hw : col_writes j cv = true) :
    (column_row_write rev total j cv s).vals (cv.output_attno - 1) =
      (column_row_write rev total j cv t).vals (cv.output_attno - 1) ∧
    (column_row_write rev total j cv s).isnull (cv.output_attno - 1) =
      (column_row_write rev total j cv t).isnull (cv.output_attno - 1) := by
  unfold column_row_write
  unfold col_writes at hw
  rcases cv with ⟨it, ar, vb, attno⟩
  cases it with
  | some it =>
    simp only [decide_eq_true_eq] at hw
    obtain ⟨vn, hvn⟩ : ∃ vn, it.data[j]? = some vn :=
      ⟨it.data[j], List.getElem?_eq_getElem hw⟩
    simp [hvn, Function.update_same]
  | none =>
    simp only [Option.isSome_iff_exists] at hw
    rcases hw with ⟨a', ha'⟩
    simp [ha', Function.update_same]

/-- Materializing a row gives equal results on two base slots that can
disagree only at attributes the materialization overwrites. -/
theorem mat_row_congr (rev : Bool) (total j : Nat)
    (cols : List CompressedColumnValues) :
    ∀ s t : TupleSlot, s.empty = t.empty →
    (∀ a, (s.vals a = t.vals a ∧ s.isnull a = t.isnull a) ∨ writes_attr cols j a) →
    mat_row rev total j cols s = mat_row rev total j cols t := by
  induction cols with
  | nil =>
    intro s t he h
    have h' : ∀ a, s.vals a = t.vals a ∧ s.isnull a = t.isnull a := by
      intro a
      rcases h a with h1 | ⟨cv, hmem, _⟩
      · exact h1
      · simp at hmem
    simp only [mat_row, List.foldl_nil]
    ext a
    · exact (h' a).1
    · exact (h' a).2
    · exact he
  | cons cv rest ih =>
    intro s t he h
    simp only [mat_row, List.foldl_cons] at *
    apply ih
    · rw [column_row_write_empty, column_row_write_empty, he]
    · intro a
      by_cases hw : col_writes j cv = true
      · by_cases ha : cv.output_attno - 1 = a
        · left
          rw [← ha]
          exact column_row_write_write rev total j cv s t hw
        · rcases h a with ⟨h1, h2⟩ | ⟨cv', hmem, hwr, hattr⟩
          · left
            have hsn := column_row_write_ne rev total j cv s a ha
            have htn := column_row_write_ne rev total j cv t a ha
            exact ⟨by rw [hsn.1, htn.1, h1], by rw [hsn.2, htn.2, h2]⟩
          · rcases List.mem_cons.mp hmem with rfl | hmem'
            · exact absurd hattr ha
            · right
              exact ⟨cv', hmem', hwr, hattr⟩
      · rw [column_row_write_nowrite rev total j cv s hw,
            column_row_write_nowrite rev total j cv t hw]
        rcases h a with hl | ⟨cv', hmem, hwr, hattr⟩
        · left; exact hl
        · rcases List.mem_cons.mp hmem with rfl | hmem'
          · exact absurd hwr hw
          · right
            exact ⟨cv', hmem', hwr, hattr⟩

/-- Attributes no column writes at row k are untouched by
materialization. -/
theorem mat_row_untouched (rev : Bool) (total k : Nat)
    (cols : List CompressedColumnValues) :
    ∀ (s : TupleSlot) (a : Nat), ¬ writes_attr cols k a →
    (mat_row rev total k cols s).vals a = s.vals a ∧
      (mat_row rev total k cols s).isnull a = s.isnull a := by
  induction cols with
  | nil => intro s a _; exact ⟨rfl, rfl⟩
  | cons cv rest ih =>
    intro s a ha
    have hrest : ¬ writes_attr rest k a := by
      intro ⟨cv', hmem, hwr, hattr⟩
      exact ha ⟨cv', List.mem_cons_of_mem _ hmem, hwr, hattr⟩
    have hhead : (column_row_write rev total k cv s).vals a = s.vals a ∧
        (column_row_write rev total k cv s).isnull a = s.isnull a := by
      by_cases hw : col_writes k cv = true
      · have hne : cv.output_attno - 1 ≠ a := by
          intro hattr
          exact ha ⟨cv, List.mem_cons_self _ _, hw, hattr⟩
        exact column_row_write_ne rev total k cv s a hne
      · rw [column_row_write_nowrite rev total k cv s hw]
        exact ⟨rfl, rfl⟩
    have := ih (column_row_write rev total k cv s) a hrest
    simp only [mat_row, List.foldl_cons] at *
    exact ⟨this.1.trans hhead.1, this.2.trans hhead.2⟩

theorem colsWF_iff (total c : Nat) (cols : List CompressedColumnValues) :
    colsWF total c cols = true ↔ colsLenWF total cols ∧ colsPosWF c cols := by
  unfold colsWF colsLenWF colsPosWF
  rw [List.all_eq_true]
  constructor
  · intro h
    constructor
    · intro cv hmem it hit
      have := h cv hmem
      rw [hit] at this
      simp only [Bool.and_eq_true, decide_eq_true_eq] at this
      exact this.1
    · intro cv hmem it hit
      have := h cv hmem
      rw [hit] at this
      simp only [Bool.and_eq_true, decide_eq_true_eq] at this
      exact this.2
  · intro ⟨h1, h2⟩ cv hmem
    cases hit : cv.iterator with
    | some it =>
      simp only [Bool.and_eq_true, decide_eq_true_eq]
      exact ⟨h1 cv hmem it hit, h2 cv hmem it hit⟩
    | none => rfl

theorem col_writes_congr (total j k : Nat) (cv : CompressedColumnValues)
    (hlen : ∀ it, cv.iterator = some it → it.data.length = total)
    (hj : j < total) (hk : k < total) :
    col_writes j cv = col_writes k cv := by
  unfold col_writes
  cases hit : cv.iterator with
  | some it =>
    have := hlen it hit
    simp only [this]
    simp [hj, hk]
  | none => rfl

theorem writes_attr_congr (total j k : Nat)
    (cols : List CompressedColumnValues) (hlen : colsLenWF total cols)
    (hj : j < total) (hk : k < total) (a : Nat) :
    writes_attr cols j a ↔ writes_attr cols k a := by
  unfold writes_attr
  constructor <;> intro ⟨cv, hmem, hwr, hattr⟩ <;>
    exact ⟨cv, hmem, by
      rw [← hwr]
      first
      | exact (col_writes_congr total k j cv (hlen cv hmem) hk hj)
      | exact (col_writes_congr total j k cv (hlen cv hmem) hj hk)
      , hattr⟩

/-- Materializing row j over a slot that already holds a materialized row
k gives the same result as materializing row j over the original slot:
every attribute row k wrote, row j overwrites. -/
theorem mat_row_overwrite (rev : Bool) (total j k : Nat)
    (cols : List CompressedColumnValues) (s : TupleSlot)
    (hlen : colsLenWF total cols) (hj : j < total) (hk : k < total) :
    mat_row rev total j cols (mat_row rev total k cols s) =
      mat_row rev total j cols s := by
  apply mat_row_congr
  · exact mat_row_empty rev total k cols s
  · intro a
    by_cases hw : writes_attr cols k a
    · right
      exact (writes_attr_congr total j k cols hlen hj hk a).mpr hw
    · left
      exact mat_row_untouched rev total k cols s a hw

theorem slot_stored_update (y : TupleSlot) (e : Bool) :
    slot_stored { y with empty := e } = slot_stored y := rfl

/-- slot_stored of a row materialized over a stored-materialized base
equals slot_stored of the row materialized over the original base. -/
theorem stored_mat_row_overwrite (rev : Bool) (total j m : Nat)
    (cols : List CompressedColumnValues) (s : TupleSlot)
    (hlen : colsLenWF total cols) (hj : j < total) (hm : m < total) :
    slot_stored (mat_row rev total j cols
        (slot_stored (mat_row rev total m cols s))) =
      slot_stored (mat_row rev total j cols s) := by
  show slot_stored (mat_row rev total j cols
      { mat_row rev total m cols s with empty := false }) = _
  rw [mat_row_set_empty, slot_stored_update,
      mat_row_overwrite rev total j m cols s hlen hj hm]

/-! ## Lemmas about columns_at_row -/

theorem column_row_write_at_row (rev : Bool) (total j p : Nat)
    (cv : CompressedColumnValues) (s : TupleSlot) :
    column_row_write rev total j
      (match cv.iterator with
       | some it => { cv with iterator := some ⟨it.data, p⟩ }
       | none => cv) s = column_row_write rev total j cv s := by
  rcases cv with ⟨it, ar, vb, attno⟩
  cases it with
  | some it => rfl
  | none => rfl

theorem mat_row_columns_at_row (rev : Bool) (total j p : Nat)
    (cols : List CompressedColumnValues) (s : TupleSlot) :
    mat_row rev total j (columns_at_row cols p) s = mat_row rev total j cols s := by
  unfold mat_row columns_at_row
  rw [List.foldl_map]
  congr 1
  funext s' cv
  exact column_row_write_at_row rev total j p cv s'

theorem row_passes_columns_at_row (chunk : DecompressChunkState)
    (total : Nat) (vqr : Option (List Bool))
    (cols : List CompressedColumnValues) (slot : TupleSlot) (p j : Nat) :
    row_passes chunk total vqr (columns_at_row cols p) slot j =
      row_passes chunk total vqr cols slot j := by
  unfold row_passes
  rw [mat_row_columns_at_row]

theorem passing_rows_columns_at_row (chunk : DecompressChunkState)
    (total : Nat) (vqr : Option (List Bool))
    (cols : List CompressedColumnValues) (slot : TupleSlot) (p : Nat) :
    ∀ k c, passing_rows chunk total vqr (columns_at_row cols p) slot c k =
      passing_rows chunk total vqr cols slot c k := by
  intro k
  induction k with
  | zero => intro c; rfl
  | succ k ih =>
    intro c
    simp only [passing_rows, row_passes_columns_at_row, ih]

theorem columns_at_row_at_row (cols : List CompressedColumnValues) (p q : Nat) :
    columns_at_row (columns_at_row cols p) q = columns_at_row cols q := by
  unfold columns_at_row
  rw [List.map_map]
  congr 1
  funext cv
  rcases cv with ⟨it, ar, vb, attno⟩
  cases it with
  | some it => rfl
  | none => rfl

theorem columns_at_row_of_pos (cols : List CompressedColumnValues) (p : Nat)
    (h : colsPosWF p cols) : columns_at_row cols p = cols := by
  unfold columns_at_row
  induction cols with
  | nil => rfl
  | cons cv rest ih =>
    simp only [List.map_cons]
    have hrest : colsPosWF p rest := fun cv' hmem it hit =>
      h cv' (List.mem_cons_of_mem _ hmem) it hit
    rw [ih hrest]
    rcases cv with ⟨it, ar, vb, attno⟩
    cases it with
    | some it =>
      have hp := h ⟨some it, ar, vb, attno⟩ (List.mem_cons_self _ _) it rfl
      simp only at hp
      obtain ⟨d, q⟩ := it
      simp only at hp
      subst hp
      rfl
    | none => rfl

theorem colsLenWF_at_row (total : Nat) (cols : List CompressedColumnValues)
    (p : Nat) (h : colsLenWF total cols) :
    colsLenWF total (columns_at_row cols p) := by
  intro cv hmem it hit
  unfold columns_at_row at hmem
  rw [List.mem_map] at hmem
  rcases hmem with ⟨cv0, hmem0, heq⟩
  rcases cv0 with ⟨it0, ar, vb, attno⟩
  cases it0 with
  | some it0 =>
    simp only at heq
    rw [← heq] at hit
    simp only at hit
    obtain rfl : ({ data := it0.data, pos := p } : DecompressionIterator) = it :=
      Option.some.inj hit
    have := h ⟨some it0, ar, vb, attno⟩ hmem0 it0 rfl
    simpa using this
  | none =>
    rw [← heq] at hit
    exact h ⟨none, ar, vb, attno⟩ hmem0 it hit

theorem colsPosWF_at_row (cols : List CompressedColumnValues) (p : Nat) :
    colsPosWF p (columns_at_row cols p) := by
  intro cv hmem it hit
  unfold columns_at_row at hmem
  rw [List.mem_map] at hmem
  rcases hmem with ⟨cv0, hmem0, heq⟩
  rcases cv0 with ⟨it0, ar, vb, attno⟩
  cases it0 with
  | some it0 =>
    simp only at heq
    rw [← heq] at hit
    simp only at hit
    obtain rfl : ({ data := it0.data, pos := p } : DecompressionIterator) = it :=
      Option.some.inj hit
    rfl
  | none =>
    rw [← heq] at hit
    simp at hit

/-! ## The advance loop versus the declarative description -/

/-- Under well-formed column sources at cursor c < total, the
materialization loop writes exactly row c and moves every iterator to
c + 1. -/
theorem make_tuple_columns_eq (rev : Bool) (total c : Nat) (hc : c < total) :
    ∀ (cols : List CompressedColumnValues) (slot : TupleSlot),
    colsLenWF total cols → colsPosWF c cols →
    make_tuple_columns (arrowRowOf rev total c) slot cols =
      .ok (mat_row rev total c cols slot, columns_at_row cols (c + 1)) := by
  intro cols
  induction cols with
  | nil => intro slot _ _; rfl
  | cons cv rest ih =>
    intro slot hlen hpos
    have hlenr : colsLenWF total rest := fun cv' hmem it hit =>
      hlen cv' (List.mem_cons_of_mem _ hmem) it hit
    have hposr : colsPosWF c rest := fun cv' hmem it hit =>
      hpos cv' (List.mem_cons_of_mem _ hmem) it hit
    rcases cv with ⟨it, ar, vb, attno⟩
    cases it with
    | some it =>
      obtain ⟨d, p⟩ := it
      have hl := hlen ⟨some ⟨d, p⟩, ar, vb, attno⟩ (List.mem_cons_self _ _)
        ⟨d, p⟩ rfl
      have hp := hpos ⟨some ⟨d, p⟩, ar, vb, attno⟩ (List.mem_cons_self _ _)
        ⟨d, p⟩ rfl
      simp only at hl hp
      have hp2 := hp.symm
      subst hp2
      have hcd : c < d.length := by omega
      obtain ⟨vn, hsome⟩ : ∃ vn, d[c]? = some vn :=
        ⟨d[c], List.getElem?_eq_getElem hcd⟩
      obtain ⟨v, n⟩ := vn
      simp only [make_tuple_columns, make_tuple_column,
        DecompressionIterator.try_next, hsome, Bool.false_eq_true, if_false]
      rw [ih _ hlenr hposr]
      simp only [mat_row, columns_at_row, List.foldl_cons, List.map_cons,
        column_row_write, hsome]
    | none =>
      cases ar with
      | some a =>
        simp only [make_tuple_columns, make_tuple_column]
        rw [ih _ hlenr hposr]
        simp only [mat_row, columns_at_row, List.foldl_cons, List.map_cons,
          column_row_write]
      | none =>
        simp only [make_tuple_columns, make_tuple_column]
        rw [ih _ hlenr hposr]
        simp only [mat_row, columns_at_row, List.foldl_cons, List.map_cons,
          column_row_write]

/-- Under well-formed column sources at cursor c < total, skipping a row
moves every iterator to c + 1. -/
theorem skip_row_columns_eq (total c : Nat) (hc : c < total) :
    ∀ cols : List CompressedColumnValues,
    colsLenWF total cols → colsPosWF c cols →
    skip_row_columns cols = columns_at_row cols (c + 1) := by
  intro cols
  induction cols with
  | nil => intro _ _; rfl
  | cons cv rest ih =>
    intro hlen hpos
    have hlenr : colsLenWF total rest := fun cv' hmem it hit =>
      hlen cv' (List.mem_cons_of_mem _ hmem) it hit
    have hposr : colsPosWF c rest := fun cv' hmem it hit =>
      hpos cv' (List.mem_cons_of_mem _ hmem) it hit
    rcases cv with ⟨it, ar, vb, attno⟩
    cases it with
    | some it =>
      obtain ⟨d, p⟩ := it
      have hl := hlen ⟨some ⟨d, p⟩, ar, vb, attno⟩ (List.mem_cons_self _ _)
        ⟨d, p⟩ rfl
      have hp := hpos ⟨some ⟨d, p⟩, ar, vb, attno⟩ (List.mem_cons_self _ _)
        ⟨d, p⟩ rfl
      simp only at hl hp
      have hp2 := hp.symm
      subst hp2
      have hcd : c < d.length := by omega
      obtain ⟨vn, hsome⟩ : ∃ vn, d[c]? = some vn :=
        ⟨d[c], List.getElem?_eq_getElem hcd⟩
      obtain ⟨v, n⟩ := vn
      simp only [skip_row_columns, columns_at_row, List.map_cons,
        DecompressionIterator.try_next, hsome]
      rw [ih hlenr hposr]
      rfl
    | none =>
      simp only [skip_row_columns, columns_at_row, List.map_cons]
      rw [ih hlenr hposr]
      rfl

/-- At the end of the batch every synchronized iterator reports is_done
and the end-of-batch check passes, leaving the columns unchanged. -/
theorem check_iterators_done_ok (total : Nat) :
    ∀ cols : List CompressedColumnValues,
    colsLenWF total cols → colsPosWF total cols →
    check_iterators_done cols = .ok cols := by
  intro cols
  induction cols with
  | nil => intro _ _; rfl
  | cons cv rest ih =>
    intro hlen hpos
    have hlenr : colsLenWF total rest := fun cv' hmem it hit =>
      hlen cv' (List.mem_cons_of_mem _ hmem) it hit
    have hposr : colsPosWF total rest := fun cv' hmem it hit =>
      hpos cv' (List.mem_cons_of_mem _ hmem) it hit
    rcases cv with ⟨it, ar, vb, attno⟩
    cases it with
    | some it =>
      obtain ⟨d, p⟩ := it
      have hl := hlen ⟨some ⟨d, p⟩, ar, vb, attno⟩ (List.mem_cons_self _ _)
        ⟨d, p⟩ rfl
      have hp := hpos ⟨some ⟨d, p⟩, ar, vb, attno⟩ (List.mem_cons_self _ _)
        ⟨d, p⟩ rfl
      simp only at hl hp
      have hp2 := hp.symm
      subst hp2
      have hnone : d[total]? = none := by
        rw [List.getElem?_eq_none_iff]
        omega
      simp only [check_iterators_done, DecompressionIterator.try_next, hnone,
        Bool.not_true, Bool.false_eq_true, if_false]
      rw [ih hlenr hposr]
    | none =>
      simp only [check_iterators_done]
      rw [ih hlenr hposr]

theorem passing_rows_mem (chunk : DecompressChunkState) (total : Nat)
    (vqr : Option (List Bool)) (cols : List CompressedColumnValues)
    (slot : TupleSlot) :
    ∀ k c j, j ∈ passing_rows chunk total vqr cols slot c k →
      c ≤ j ∧ j < c + k := by
  intro k
  induction k with
  | zero => intro c j h; simp [passing_rows] at h
  | succ k ih =>
    intro c j h
    unfold passing_rows at h
    by_cases hp : row_passes chunk total vqr cols slot c = true
    · rw [if_pos hp] at h
      rcases List.mem_cons.mp h with rfl | h'
      · omega
      · have := ih (c + 1) j h'
        omega
    · rw [if_neg hp] at h
      have := ih (c + 1) j h
      omega

/-- The rows that pass are unaffected by replacing the base slot with one
that already holds a materialized row: every attribute the row filter can
distinguish is overwritten before it runs. -/
theorem passing_rows_base (chunk : DecompressChunkState) (total : Nat)
    (vqr : Option (List Bool)) (cols : List CompressedColumnValues)
    (slot : TupleSlot) (m : Nat) (hlen : colsLenWF total cols)
    (hm : m < total) :
    ∀ k c, c + k ≤ total →
    passing_rows chunk total vqr cols
        (slot_stored (mat_row chunk.reverse total m cols slot)) c k =
      passing_rows chunk total vqr cols slot c k := by
  intro k
  induction k with
  | zero => intro c _; rfl
  | succ k ih =>
    intro c hck
    have hc : c < total := by omega
    have hpass : row_passes chunk total vqr cols
        (slot_stored (mat_row chunk.reverse total m cols slot)) c =
        row_passes chunk total vqr cols slot c := by
      unfold row_passes
      rw [stored_mat_row_overwrite chunk.reverse total c m cols slot hlen hc hm]
    unfold passing_rows
    rw [hpass, ih (c + 1) (by omega)]

theorem head?_mem {α : Type} {l : List α} {x : α} (h : l.head? = some x) :
    x ∈ l := by
  cases l with
  | nil => simp at h
  | cons y ys =>
    simp only [List.head?_cons, Option.some.injEq] at h
    rw [← h]
    exact List.mem_cons_self _ _

theorem if_empty_stored (s : TupleSlot) :
    (if s.empty then { s with empty := false } else s) = slot_stored s := by
  obtain ⟨v, n, e⟩ := s
  cases e <;> rfl

/-- Under well-formed column sources at cursor c < total, making the next
tuple materializes row c into the stored slot and moves every iterator to
c + 1. -/
theorem compressed_batch_make_next_tuple_eq (chunk : DecompressChunkState)
    (total c : Nat) (vqr : Option (List Bool))
    (cols : List CompressedColumnValues) (slot : TupleSlot)
    (hc : c < total) (hlen : colsLenWF total cols) (hpos : colsPosWF c cols) :
    compressed_batch_make_next_tuple chunk ⟨total, c, vqr, cols, slot⟩ =
      .ok (slot_stored (mat_row chunk.reverse total c cols slot),
           columns_at_row cols (c + 1)) := by
  unfold compressed_batch_make_next_tuple
  simp only
  rw [make_tuple_columns_eq chunk.reverse total c hc cols slot hlen hpos]
  simp only [if_empty_stored]

/-- The advance loop, started at cursor c with synchronized well-formed
column sources and fuel total - c, stops exactly at the first passing row
(cursor one past it, slot holding it, iterators synchronized), or
exhausts the batch (cursor = total, slot cleared) when no row at or past
c passes. -/
theorem advance_loop_eq (chunk : DecompressChunkState) (total : Nat)
    (vqr : Option (List Bool)) :
    ∀ (k c : Nat) (cols : List CompressedColumnValues) (slot : TupleSlot),
    total - c = k → c ≤ total →
    colsLenWF total cols → colsPosWF c cols →
    (∀ j, (passing_rows chunk total vqr cols slot c k).head? = some j →
      compressed_batch_advance_loop chunk k ⟨total, c, vqr, cols, slot⟩ =
        .ok ⟨total, j + 1, vqr, columns_at_row cols (j + 1),
             slot_stored (mat_row chunk.reverse total j cols slot)⟩) ∧
    (passing_rows chunk total vqr cols slot c k = [] →
      ∃ s, compressed_batch_advance_loop chunk k ⟨total, c, vqr, cols, slot⟩ =
        .ok ⟨total, total, vqr, columns_at_row cols total, s⟩ ∧
        s.empty = true) := by
  intro k
  induction k with
  | zero =>
    intro c cols slot hk hc hlen hpos
    have hct : c = total := by omega
    subst hct
    constructor
    · intro j hj
      simp [passing_rows] at hj
    · intro _
      refine ⟨slot_cleared slot, ?_, rfl⟩
      show advance_exhaust _ = _
      unfold advance_exhaust
      simp only
      rw [check_iterators_done_ok c cols hlen hpos,
        columns_at_row_of_pos cols c hpos]
  | succ k ih =>
    intro c cols slot hk hc hlen hpos
    have hct : c < total := by omega
    have hlt : (⟨total, c, vqr, cols, slot⟩ :
        DecompressBatchState).next_batch_row <
        (⟨total, c, vqr, cols, slot⟩ :
        DecompressBatchState).total_batch_rows := hct
    have hlen' : colsLenWF total (columns_at_row cols (c + 1)) :=
      colsLenWF_at_row total cols (c + 1) hlen
    have hpos' : colsPosWF (c + 1) (columns_at_row cols (c + 1)) :=
      colsPosWF_at_row cols (c + 1)
    cases hv : compressed_batch_vector_qual chunk ⟨total, c, vqr, cols, slot⟩ with
    | false =>
      -- Row c fails the vectorized quals: skip it, pulling the iterators.
      have hvb : vec_bit vqr chunk.reverse total c = false := hv
      have hrp : row_passes chunk total vqr cols slot c = false := by
        unfold row_passes
        rw [hvb]
        rfl
      have hloop : compressed_batch_advance_loop chunk (k + 1)
          ⟨total, c, vqr, cols, slot⟩ =
          compressed_batch_advance_loop chunk k
            ⟨total, c + 1, vqr, columns_at_row cols (c + 1), slot⟩ := by
        show (if _ < _ then _ else _) = _
        rw [if_pos hlt]
        rw [hv]
        show compressed_batch_advance_loop chunk k
          ⟨total, c + 1, vqr, skip_row_columns cols, slot⟩ = _
        rw [skip_row_columns_eq total c hct cols hlen hpos]
      have hrows : passing_rows chunk total vqr cols slot c (k + 1) =
          passing_rows chunk total vqr cols slot (c + 1) k := by
        rw [passing_rows, if_neg (by simp [hrp])]
      have := ih (c + 1) (columns_at_row cols (c + 1)) slot
        (by omega) (by omega) hlen' hpos'
      rw [passing_rows_columns_at_row] at this
      constructor
      · intro j hj
        rw [hloop]
        rw [hrows] at hj
        have h1 := this.1 j hj
        rw [mat_row_columns_at_row, columns_at_row_at_row] at h1
        exact h1
      · intro hnil
        rw [hloop]
        rw [hrows] at hnil
        have h2 := this.2 hnil
        rw [columns_at_row_at_row] at h2
        exact h2
    | true =>
      -- Row c passes the vectorized quals: materialize it.
      have hvb : vec_bit vqr chunk.reverse total c = true := hv
      have hmk := compressed_batch_make_next_tuple_eq chunk total c vqr cols
        slot hct hlen hpos
      have hq : compressed_batch_postgres_qual chunk
          ⟨total, c, vqr, columns_at_row cols (c + 1),
           slot_stored (mat_row chunk.reverse total c cols slot)⟩ =
          row_passes chunk total vqr cols slot c := by
        unfold compressed_batch_postgres_qual row_passes
        rw [hvb]
        cases chunk.qual with
        | none => rfl
        | some q => rfl
      cases hrp : row_passes chunk total vqr cols slot c with
      | true =>
        -- The row filter also passes: the loop stops here.
        have hrows : passing_rows chunk total vqr cols slot c (k + 1) =
            c :: passing_rows chunk total vqr cols slot (c + 1) k := by
          rw [passing_rows, if_pos hrp]
        constructor
        · intro j hj
          rw [hrows] at hj
          simp only [List.head?_cons, Option.some.injEq] at hj
          subst hj
          show (if _ < _ then _ else _) = _
          rw [if_pos hlt, hv]
          simp only [Bool.not_true, Bool.false_eq_true, if_false]
          rw [hmk]
          simp only
          rw [if_pos (by rw [hq]; exact hrp)]
        · intro hnil
          rw [hrows] at hnil
          simp at hnil
      | false =>
        -- The row filter fails: materialize and continue from c + 1.
        have hrows : passing_rows chunk total vqr cols slot c (k + 1) =
            passing_rows chunk total vqr cols slot (c + 1) k := by
          rw [passing_rows, if_neg (by simp [hrp])]
        have hloop : compressed_batch_advance_loop chunk (k + 1)
            ⟨total, c, vqr, cols, slot⟩ =
            compressed_batch_advance_loop chunk k
              ⟨total, c + 1, vqr, columns_at_row cols (c + 1),
               slot_stored (mat_row chunk.reverse total c cols slot)⟩ := by
          show (if _ < _ then _ else _) = _
          rw [if_pos hlt, hv]
          simp only [Bool.not_true, Bool.false_eq_true, if_false]
          rw [hmk]
          simp only
          rw [if_neg (by rw [hq]; simp [hrp])]
        have := ih (c + 1) (columns_at_row cols (c + 1))
          (slot_stored (mat_row chunk.reverse total c cols slot))
          (by omega) (by omega) hlen' hpos'
        rw [passing_rows_columns_at_row,
          passing_rows_base chunk total vqr cols slot c hlen hct k (c + 1)
            (by omega)] at this
        constructor
        · intro j hj
          rw [hloop]
          rw [hrows] at hj
          have hjmem := passing_rows_mem chunk total vqr cols slot k (c + 1) j
            (head?_mem hj)
          have h1 := this.1 j hj
          rw [mat_row_columns_at_row, columns_at_row_at_row,
            stored_mat_row_overwrite chunk.reverse total j c cols slot hlen
              (by omega) hct] at h1
          exact h1
        · intro hnil
          rw [hloop]
          rw [hrows] at hnil
          have h2 := this.2 hnil
          rw [columns_at_row_at_row] at h2
          exact h2

theorem slot_stored_empty (s : TupleSlot) : (slot_stored s).empty = false := rfl

theorem passing_rows_cons (chunk : DecompressChunkState) (total : Nat)
    (vqr : Option (List Bool)) (cols : List CompressedColumnValues)
    (slot : TupleSlot) :
    ∀ k c j rest, passing_rows chunk total vqr cols slot c k = j :: rest →
      rest = passing_rows chunk total vqr cols slot (j + 1) (c + k - (j + 1)) := by
  intro k
  induction k with
  | zero => intro c j rest h; simp [passing_rows] at h
  | succ k ih =>
    intro c j rest h
    rw [passing_rows] at h
    by_cases hp : row_passes chunk total vqr cols slot c = true
    · rw [if_pos hp, List.cons.injEq] at h
      obtain ⟨h1, h2⟩ := h
      subst h1
      subst h2
      have harith : c + (k + 1) - (c + 1) = k := by omega
      rw [harith]
    · rw [if_neg hp] at h
      have := ih (c + 1) j rest h
      have harith : c + 1 + k - (j + 1) = c + (k + 1) - (j + 1) := by omega
      rw [harith] at this
      exact this

/-- A complete advance-to-exhaustion traversal started at cursor c emits
exactly the passing rows at or past c, each materialized over the
original base slot, in order. -/
theorem collect_rows_eq (chunk : DecompressChunkState) (total : Nat)
    (vqr : Option (List Bool)) :
    ∀ (fuel c : Nat) (cols : List CompressedColumnValues) (slot : TupleSlot),
    total - c < fuel → c ≤ total →
    colsLenWF total cols → colsPosWF c cols →
    collect_rows chunk fuel ⟨total, c, vqr, cols, slot⟩ =
      .ok ((passing_rows chunk total vqr cols slot c (total - c)).map
        (fun j => slot_stored (mat_row chunk.reverse total j cols slot))) := by
  intro fuel
  induction fuel with
  | zero => intro c cols slot hf; omega
  | succ fuel ih =>
    intro c cols slot hf hc hlen hpos
    have hadv := advance_loop_eq chunk total vqr (total - c) c cols slot rfl
      hc hlen hpos
    cases hl : passing_rows chunk total vqr cols slot c (total - c) with
    | nil =>
      obtain ⟨s, hok, hemp⟩ := hadv.2 hl
      rw [collect_rows, show compressed_batch_advance chunk
        ⟨total, c, vqr, cols, slot⟩ =
        compressed_batch_advance_loop chunk (total - c)
          ⟨total, c, vqr, cols, slot⟩ from rfl, hok]
      simp only [hemp, if_true, List.map_nil]
    | cons j rest =>
      have hj := hadv.1 j (by rw [hl]; rfl)
      have hjmem := passing_rows_mem chunk total vqr cols slot (total - c) c j
        (by rw [hl]; exact List.mem_cons_self _ _)
      have hjlt : j < total := by omega
      have hrest : rest = passing_rows chunk total vqr cols slot (j + 1)
          (total - (j + 1)) := by
        have := passing_rows_cons chunk total vqr cols slot (total - c) c j
          rest hl
        have harith : c + (total - c) - (j + 1) = total - (j + 1) := by omega
        rw [harith] at this
        exact this
      rw [collect_rows, show compressed_batch_advance chunk
        ⟨total, c, vqr, cols, slot⟩ =
        compressed_batch_advance_loop chunk (total - c)
          ⟨total, c, vqr, cols, slot⟩ from rfl, hj]
      simp only [slot_stored_empty, Bool.false_eq_true, if_false]
      have hcall := ih (j + 1) (columns_at_row cols (j + 1))
        (slot_stored (mat_row chunk.reverse total j cols slot))
        (by omega) (by omega)
        (colsLenWF_at_row total cols (j + 1) hlen)
        (colsPosWF_at_row cols (j + 1))
      rw [passing_rows_columns_at_row,
        passing_rows_base chunk total vqr cols slot j hlen hjlt
          (total - (j + 1)) (j + 1) (by omega)] at hcall
      rw [hcall]
      have hmap : ∀ l : List Nat, (∀ i ∈ l, i < total) →
          l.map (fun i => slot_stored (mat_row chunk.reverse total i
            (columns_at_row cols (j + 1))
            (slot_stored (mat_row chunk.reverse total j cols slot)))) =
          l.map (fun i => slot_stored (mat_row chunk.reverse total i cols slot)) := by
        intro l hli
        apply List.map_congr_left
        intro i hi
        rw [mat_row_columns_at_row,
          stored_mat_row_overwrite chunk.reverse total i j cols slot hlen
            (hli i hi) hjlt]
      rw [hmap _ (fun i hi => by
        have := passing_rows_mem chunk total vqr cols slot (total - (j + 1))
          (j + 1) i hi
        omega)]
      rw [hrest]
      rfl

/-- A complete advance-to-exhaustion traversal leaves the batch at cursor
total with every iterator at total and the slot empty. -/
theorem advance_until_empty_eq (chunk : DecompressChunkState) (total : Nat)
    (vqr : Option (List Bool)) :
    ∀ (fuel c : Nat) (cols : List CompressedColumnValues) (slot : TupleSlot),
    total - c < fuel → c ≤ total →
    colsLenWF total cols → colsPosWF c cols →
    ∃ s, advance_until_empty chunk fuel ⟨total, c, vqr, cols, slot⟩ =
      .ok ⟨total, total, vqr, columns_at_row cols total, s⟩ ∧
      s.empty = true := by
  intro fuel
  induction fuel with
  | zero => intro c cols slot hf; omega
  | succ fuel ih =>
    intro c cols slot hf hc hlen hpos
    have hadv := advance_loop_eq chunk total vqr (total - c) c cols slot rfl
      hc hlen hpos
    cases hl : passing_rows chunk total vqr cols slot c (total - c) with
    | nil =>
      obtain ⟨s, hok, hemp⟩ := hadv.2 hl
      refine ⟨s, ?_, hemp⟩
      rw [advance_until_empty, show compressed_batch_advance chunk
        ⟨total, c, vqr, cols, slot⟩ =
        compressed_batch_advance_loop chunk (total - c)
          ⟨total, c, vqr, cols, slot⟩ from rfl, hok]
      simp only [hemp, if_true]
    | cons j rest =>
      have hj := hadv.1 j (by rw [hl]; rfl)
      have hjmem := passing_rows_mem chunk total vqr cols slot (total - c) c j
        (by rw [hl]; exact List.mem_cons_self _ _)
      obtain ⟨s, hok, hemp⟩ := ih (j + 1) (columns_at_row cols (j + 1))
        (slot_stored (mat_row chunk.reverse total j cols slot))
        (by omega) (by omega)
        (colsLenWF_at_row total cols (j + 1) hlen)
        (colsPosWF_at_row cols (j + 1))
      rw [columns_at_row_at_row] at hok
      refine ⟨s, ?_, hemp⟩
      rw [advance_until_empty, show compressed_batch_advance chunk
        ⟨total, c, vqr, cols, slot⟩ =
        compressed_batch_advance_loop chunk (total - c)
          ⟨total, c, vqr, cols, slot⟩ from rfl, hj]
      simp only [slot_stored_empty, Bool.false_eq_true, if_false]
      exact hok

/-! ## Reverse traversal -/

theorem column_row_write_reverse (total j : Nat) (hj : j < total)
    (cv : CompressedColumnValues)
    (hlen : ∀ it, cv.iterator = some it → it.data.length = total)
    (s : TupleSlot) :
    column_row_write true total j
      (match cv.iterator with
       | some it => { cv with iterator := some ⟨it.data.reverse, it.pos⟩ }
       | none => cv) s =
    column_row_write false total (total - 1 - j) cv s := by
  rcases cv with ⟨it, ar, vb, attno⟩
  cases it with
  | some it =>
    have hl := hlen it rfl
    simp only at hl
    have hrev : it.data.reverse[j]? = it.data[total - 1 - j]? := by
      rw [List.getElem?_reverse (by rw [hl]; exact hj), hl]
    simp only [column_row_write, hrev]
  | none =>
    cases ar with
    | some a =>
      simp only [column_row_write, arrowRowOf, if_pos, if_neg]
      simp
    | none => rfl

theorem mat_row_reverse (total j : Nat) (hj : j < total)
    (cols : List CompressedColumnValues) (hlen : colsLenWF total cols) :
    ∀ s : TupleSlot,
    mat_row true total j (reverse_columns cols) s =
      mat_row false total (total - 1 - j) cols s := by
  induction cols with
  | nil => intro s; rfl
  | cons cv rest ih =>
    intro s
    have hlenr : colsLenWF total rest := fun cv' hmem it hit =>
      hlen cv' (List.mem_cons_of_mem _ hmem) it hit
    have hlenh : ∀ it, cv.iterator = some it → it.data.length = total :=
      fun it hit => hlen cv (List.mem_cons_self _ _) it hit
    simp only [reverse_columns, List.map_cons, mat_row, List.foldl_cons]
    rw [column_row_write_reverse total j hj cv hlenh s]
    exact ih hlenr (column_row_write false total (total - 1 - j) cv s)

theorem vec_bit_reverse (vqr : Option (List Bool)) (total j : Nat) :
    vec_bit vqr true total j = vec_bit vqr false total (total - 1 - j) := by
  unfold vec_bit arrowRowOf
  cases vqr <;> simp

theorem row_passes_reverse (chunk : DecompressChunkState)
    (hrev : chunk.reverse = false) (total : Nat) (vqr : Option (List Bool))
    (cols : List CompressedColumnValues) (slot : TupleSlot)
    (hlen : colsLenWF total cols) (j : Nat) (hj : j < total) :
    row_passes { chunk with reverse := true } total vqr
      (reverse_columns cols) slot j =
    row_passes chunk total vqr cols slot (total - 1 - j) := by
  unfold row_passes
  show (vec_bit vqr true total j && _) = (vec_bit vqr chunk.reverse total _ && _)
  rw [hrev, vec_bit_reverse]
  show (_ && (match chunk.qual with | none => true | some q => _)) = _
  cases chunk.qual with
  | none => rfl
  | some q =>
    have hm : mat_row true total j (reverse_columns cols) slot =
        mat_row false total (total - 1 - j) cols slot :=
      mat_row_reverse total j hj cols hlen slot
    simp only [hm, hrev]

theorem passing_rows_eq_filter (chunk : DecompressChunkState) (total : Nat)
    (vqr : Option (List Bool)) (cols : List CompressedColumnValues)
    (slot : TupleSlot) :
    ∀ k c, passing_rows chunk total vqr cols slot c k =
      (List.range' c k).filter (row_passes chunk total vqr cols slot) := by
  intro k
  induction k with
  | zero => intro c; rfl
  | succ k ih =>
    intro c
    rw [passing_rows, List.range'_succ, List.filter_cons, ih (c + 1)]

theorem range_reverse_map (n : Nat) :
    (List.range n).reverse = (List.range n).map (fun i => n - 1 - i) := by
  apply List.ext_getElem
  · simp
  · intro i h1 h2
    rw [List.getElem_reverse]
    simp

/-- The emitted-row list of a reverse traversal is the reverse of the
emitted-row list of the forward traversal of the same column data. -/
theorem passing_map_reverse (chunk : DecompressChunkState)
    (hrev : chunk.reverse = false) (total : Nat) (vqr : Option (List Bool))
    (cols : List CompressedColumnValues) (slot : TupleSlot)
    (hlen : colsLenWF total cols) :
    (passing_rows { chunk with reverse := true } total vqr
        (reverse_columns cols) slot 0 total).map
      (fun j => slot_stored (mat_row true total j (reverse_columns cols) slot)) =
    (((passing_rows chunk total vqr cols slot 0 total).map
      (fun j => slot_stored (mat_row chunk.reverse total j cols slot))).reverse) := by
  rw [passing_rows_eq_filter, passing_rows_eq_filter, ← List.range_eq_range']
  rw [← List.map_reverse, ← List.filter_reverse, range_reverse_map,
    List.filter_map, List.map_map]
  rw [List.filter_congr (p := (row_passes chunk total vqr cols slot) ∘
      (fun i => total - 1 - i))
    (q := row_passes { chunk with reverse := true } total vqr
      (reverse_columns cols) slot)
    (fun j hj => by
      have hjlt : j < total := List.mem_range.mp hj
      show row_passes chunk total vqr cols slot (total - 1 - j) = _
      rw [← row_passes_reverse chunk hrev total vqr cols slot hlen j hjlt])]
  apply List.map_congr_left
  intro j hj
  have hjlt : j < total := List.mem_range.mp (List.mem_filter.mp hj).1
  show slot_stored (mat_row true total j (reverse_columns cols) slot) =
    slot_stored (mat_row chunk.reverse total (total - 1 - j) cols slot)
  rw [mat_row_reverse total j hjlt cols hlen slot, hrev]

/-! ## set_compressed_tuple under reversal and reuse -/

theorem setup_one_column_reverse (chunk : DecompressChunkState)
    (hrev : chunk.reverse = false) (total : Nat) (slot : TupleSlot)
    (desc : DecompressChunkColumnDescription) (input : ColumnDatum) :
    setup_one_column { chunk with reverse := true } total slot desc input =
      (setup_one_column chunk total slot desc input).map
        (fun r => (r.1, r.2.1, r.2.2.map (fun cv =>
          match cv.iterator with
          | some it => { cv with iterator := some ⟨it.data.reverse, it.pos⟩ }
          | none => cv))) := by
  rcases desc with ⟨ty, attno, typ, bulk_ok⟩
  cases ty <;> cases input <;> try rfl
  case compressed_column.compressed rows bulk =>
    by_cases hb : (chunk.enable_bulk_decompression && bulk_ok) = true
    · by_cases h0 : total = 0
      · simp [setup_one_column, hb, h0, Except.map]
      · by_cases hne : total ≠ bulk.length
        · simp [setup_one_column, hb, h0, hne, Except.map]
        · simp [setup_one_column, hb, h0, hne, Except.map]
    · simp [setup_one_column, hb, hrev, Except.map]
  case count_column.countdatum cval =>
    by_cases hcv : cval ≤ 0
    · simp [setup_one_column, hcv, Except.map]
    · by_cases h0 : total = 0
      · simp [setup_one_column, hcv, h0, Except.map]
      · by_cases hne : (total : Int) ≠ cval
        · simp [setup_one_column, hcv, h0, hne, Except.map]
        · simp [setup_one_column, hcv, h0, hne, Except.map]

theorem setup_columns_reverse (chunk : DecompressChunkState)
    (hrev : chunk.reverse = false) :
    ∀ (l : List (DecompressChunkColumnDescription × ColumnDatum))
      (total : Nat) (slot : TupleSlot),
    setup_columns { chunk with reverse := true } total slot l =
      (setup_columns chunk total slot l).map
        (fun r => (r.1, r.2.1, reverse_columns r.2.2)) := by
  intro l
  induction l with
  | nil => intro total slot; rfl
  | cons di rest ih =>
    intro total slot
    obtain ⟨desc, input⟩ := di
    rw [setup_columns, setup_columns]
    rw [setup_one_column_reverse chunk hrev total slot desc input]
    cases hone : setup_one_column chunk total slot desc input with
    | error e => rfl
    | ok r =>
      obtain ⟨total', slot', cv?⟩ := r
      simp only [Except.map]
      rw [ih total' slot']
      cases hrest : setup_columns chunk total' slot' rest with
      | error e => rfl
      | ok r' =>
        obtain ⟨total'', slot'', cvs⟩ := r'
        simp only [Except.map]
        cases cv? with
        | none => rfl
        | some cv => rfl

theorem getD_reverse_columns (cols : List CompressedColumnValues) (i : Nat) :
    (reverse_columns cols).getD i default =
      (match (cols.getD i default).iterator with
       | some it => { cols.getD i default with
                      iterator := some ⟨it.data.reverse, it.pos⟩ }
       | none => cols.getD i default) := by
  unfold reverse_columns
  rw [List.getD_eq_getElem?_getD, List.getD_eq_getElem?_getD,
    List.getElem?_map]
  cases h : cols[i]? with
  | none => rfl
  | some cv => rfl

theorem apply_one_vector_qual_reverse (chunk : DecompressChunkState)
    (cols : List CompressedColumnValues) (slot : TupleSlot) (total : Nat)
    (bm : List Bool) (q : VectorQual) :
    apply_one_vector_qual { chunk with reverse := true }
      (reverse_columns cols) slot total bm q =
    apply_one_vector_qual chunk cols slot total bm q := by
  unfold apply_one_vector_qual
  cases hidx : chunk.template_columns.findIdx?
      (fun d => d.output_attno = q.varattno) with
  | none => rfl
  | some i =>
    simp only
    rw [getD_reverse_columns cols i]
    generalize cols.getD i default = cvv
    cases hit : cvv.iterator with
    | some it => simp [hit]
    | none => simp [hit]

theorem apply_quals_fold_reverse (chunk : DecompressChunkState)
    (cols : List CompressedColumnValues) (slot : TupleSlot) (total : Nat) :
    ∀ (qs : List VectorQual) (bm : List Bool),
    apply_quals_fold { chunk with reverse := true }
      (reverse_columns cols) slot total bm qs =
    apply_quals_fold chunk cols slot total bm qs := by
  intro qs
  induction qs with
  | nil => intro bm; rfl
  | cons q rest ih =>
    intro bm
    rw [apply_quals_fold, apply_quals_fold,
      apply_one_vector_qual_reverse chunk cols slot total bm q]
    cases h : apply_one_vector_qual chunk cols slot total bm q with
    | error e => rfl
    | ok bm' => exact ih bm'

/-- Loading the same compressed tuple with the scan configured for
reverse order yields the same batch state except that every row-by-row
iterator delivers its values in reverse. -/
theorem compressed_batch_set_compressed_tuple_reverse
    (chunk : DecompressChunkState) (hrev : chunk.reverse = false)
    (bs : DecompressBatchState) (inputs : List ColumnDatum) :
    compressed_batch_set_compressed_tuple { chunk with reverse := true }
      bs inputs =
    (compressed_batch_set_compressed_tuple chunk bs inputs).map
      (fun b => { b with
        compressed_columns := reverse_columns b.compressed_columns }) := by
  unfold compressed_batch_set_compressed_tuple
  rw [show ({ chunk with reverse := true } :
    DecompressChunkState).template_columns = chunk.template_columns from rfl]
  rw [setup_columns_reverse chunk hrev (chunk.template_columns.zip inputs) 0
    bs.decompressed_scan_slot]
  cases hs : setup_columns chunk 0 bs.decompressed_scan_slot
      (chunk.template_columns.zip inputs) with
  | error e => rfl
  | ok r =>
    obtain ⟨total, slot, cols⟩ := r
    simp only [Except.map]
    unfold apply_vector_quals
    rw [show ({ chunk with reverse := true } :
      DecompressChunkState).vectorized_quals = chunk.vectorized_quals from rfl]
    by_cases hq : chunk.vectorized_quals.isEmpty
    · rw [if_pos hq, if_pos hq]
    · rw [if_neg hq, if_neg hq]
      simp only
      rw [apply_quals_fold_reverse chunk cols slot total
        chunk.vectorized_quals (List.replicate total true)]
      cases hf : apply_quals_fold chunk cols slot total
          (List.replicate total true) chunk.vectorized_quals with
      | error e => rfl
      | ok bm => rfl

theorem colsLenWF_reverse (total : Nat) (cols : List CompressedColumnValues)
    (h : colsLenWF total cols) : colsLenWF total (reverse_columns cols) := by
  intro cv hmem it hit
  unfold reverse_columns at hmem
  rw [List.mem_map] at hmem
  rcases hmem with ⟨cv0, hmem0, heq⟩
  rcases cv0 with ⟨it0, ar, vb, attno⟩
  cases it0 with
  | some it0 =>
    simp only at heq
    rw [← heq] at hit
    simp only at hit
    obtain rfl : ({ data := it0.data.reverse, pos := it0.pos } :
        DecompressionIterator) = it := Option.some.inj hit
    have := h ⟨some it0, ar, vb, attno⟩ hmem0 it0 rfl
    simpa using this
  | none =>
    rw [← heq] at hit
    exact h ⟨none, ar, vb, attno⟩ hmem0 it hit

theorem colsPosWF_reverse (c : Nat) (cols : List CompressedColumnValues)
    (h : colsPosWF c cols) : colsPosWF c (reverse_columns cols) := by
  intro cv hmem it hit
  unfold reverse_columns at hmem
  rw [List.mem_map] at hmem
  rcases hmem with ⟨cv0, hmem0, heq⟩
  rcases cv0 with ⟨it0, ar, vb, attno⟩
  cases it0 with
  | some it0 =>
    simp only at heq
    rw [← heq] at hit
    simp only at hit
    obtain rfl : ({ data := it0.data.reverse, pos := it0.pos } :
        DecompressionIterator) = it := Option.some.inj hit
    exact h ⟨some it0, ar, vb, attno⟩ hmem0 it0 rfl
  | none =>
    rw [← heq] at hit
    exact h ⟨none, ar, vb, attno⟩ hmem0 it hit

/-- apply_vector_quals only ever touches the bitmap: row counters,
columns and slot pass through. -/
theorem apply_vector_quals_ok_proj (chunk : DecompressChunkState)
    (bs b : DecompressBatchState)
    (h : apply_vector_quals chunk bs = .ok b) :
    b.total_batch_rows = bs.total_batch_rows ∧
    b.next_batch_row = bs.next_batch_row ∧
    b.compressed_columns = bs.compressed_columns ∧
    b.decompressed_scan_slot = bs.decompressed_scan_slot := by
  unfold apply_vector_quals at h
  by_cases hq : chunk.vectorized_quals.isEmpty
  · rw [if_pos hq] at h
    obtain rfl : bs = b := Except.ok.inj h
    exact ⟨rfl, rfl, rfl, rfl⟩
  · rw [if_neg hq] at h
    cases hf : apply_quals_fold chunk bs.compressed_columns
        bs.decompressed_scan_slot bs.total_batch_rows
        (List.replicate bs.total_batch_rows true) chunk.vectorized_quals with
    | error e => rw [hf] at h; exact absurd h (by simp)
    | ok bm =>
      rw [hf] at h
      simp only at h
      obtain rfl := Except.ok.inj h
      exact ⟨rfl, rfl, rfl, rfl⟩

/-- With a nonempty vectorized qual list the bitmap is fully recomputed:
the result does not depend on the bitmap already in the state. -/
theorem apply_vector_quals_vqr (chunk : DecompressChunkState)
    (hq : ¬ chunk.vectorized_quals.isEmpty = true) (total n : Nat)
    (v1 v2 : Option (List Bool)) (cols : List CompressedColumnValues)
    (slot : TupleSlot) :
    apply_vector_quals chunk ⟨total, n, v1, cols, slot⟩ =
      apply_vector_quals chunk ⟨total, n, v2, cols, slot⟩ := by
  unfold apply_vector_quals
  rw [if_neg hq, if_neg hq]

/-- The batch row count and the rebuilt column sources produced by the
column-setup loop do not depend on the contents of the output slot. -/
theorem setup_one_column_proj (chunk : DecompressChunkState) (total : Nat)
    (desc : DecompressChunkColumnDescription) (input : ColumnDatum)
    (s t : TupleSlot) :
    (setup_one_column chunk total s desc input).map (fun r => (r.1, r.2.2)) =
      (setup_one_column chunk total t desc input).map (fun r => (r.1, r.2.2)) := by
  rcases desc with ⟨ty, attno, typ, bulk_ok⟩
  cases ty <;> cases input <;> try rfl
  case compressed_column.compressed rows bulk =>
    by_cases hb : (chunk.enable_bulk_decompression && bulk_ok) = true
    · by_cases h0 : total = 0
      · simp [setup_one_column, hb, h0, Except.map]
      · by_cases hne : total ≠ bulk.length
        · simp [setup_one_column, hb, h0, hne, Except.map]
        · simp [setup_one_column, hb, h0, hne, Except.map]
    · simp [setup_one_column, hb, Except.map]
  case count_column.countdatum cval =>
    by_cases hcv : cval ≤ 0
    · simp [setup_one_column, hcv, Except.map]
    · by_cases h0 : total = 0
      · simp [setup_one_column, hcv, h0, Except.map]
      · by_cases hne : (total : Int) ≠ cval
        · simp [setup_one_column, hcv, h0, hne, Except.map]
        · simp [setup_one_column, hcv, h0, hne, Except.map]

theorem setup_columns_proj (chunk : DecompressChunkState) :
    ∀ (l : List (DecompressChunkColumnDescription × ColumnDatum))
      (total : Nat) (s t : TupleSlot),
    (setup_columns chunk total s l).map (fun r => (r.1, r.2.2)) =
      (setup_columns chunk total t l).map (fun r => (r.1, r.2.2)) := by
  intro l
  induction l with
  | nil => intro total s t; rfl
  | cons di rest ih =>
    intro total s t
    obtain ⟨desc, input⟩ := di
    rw [setup_columns, setup_columns]
    have hone := setup_one_column_proj chunk total desc input s t
    cases hs : setup_one_column chunk total s desc input with
    | error e =>
      rw [hs] at hone
      cases ht : setup_one_column chunk total t desc input with
      | error e' =>
        rw [ht] at hone
        simp only [Except.map] at hone
        obtain rfl := Except.error.inj hone
        rfl
      | ok r' => rw [ht] at hone; exact absurd hone (by simp [Except.map])
    | ok r =>
      obtain ⟨total', s', cv?⟩ := r
      rw [hs] at hone
      cases ht : setup_one_column chunk total t desc input with
      | error e' => rw [ht] at hone; exact absurd hone (by simp [Except.map])
      | ok r' =>
        obtain ⟨total'', t', cv?'⟩ := r'
        rw [ht] at hone
        simp only [Except.map, Except.ok.injEq, Prod.mk.injEq] at hone
        obtain ⟨rfl, rfl⟩ := hone
        simp only [Except.map]
        have hrest := ih total' s' t'
        cases hrs : setup_columns chunk total' s' rest with
        | error e =>
          rw [hrs] at hrest
          cases hrt : setup_columns chunk total' t' rest with
          | error e' =>
            rw [hrt] at hrest
            simp only [Except.map] at hrest
            obtain rfl := Except.error.inj hrest
            rfl
          | ok rr' => rw [hrt] at hrest; exact absurd hrest (by simp [Except.map])
        | ok rr =>
          obtain ⟨T, S, C⟩ := rr
          rw [hrs] at hrest
          cases hrt : setup_columns chunk total' t' rest with
          | error e' => rw [hrt] at hrest; exact absurd hrest (by simp [Except.map])
          | ok rr' =>
            obtain ⟨T', S', C'⟩ := rr'
            rw [hrt] at hrest
            simp only [Except.map, Except.ok.injEq, Prod.mk.injEq] at hrest
            obtain ⟨rfl, rfl⟩ := hrest
            simp [Except.map]

/-! ## Remaining helper lemmas -/

theorem make_single_value_arrow_length (pgtype : PgType) (datum : Nat)
    (isnull : Bool) (v : ArrowArrayData)
    (h : make_single_value_arrow pgtype datum isnull = .ok v) :
    v.length = 1 := by
  unfold make_single_value_arrow at h
  by_cases hn : isnull = true
  · rw [if_pos hn] at h
    obtain rfl := Except.ok.inj h
    rfl
  · rw [if_neg hn] at h
    cases pgtype <;> simp only at h <;>
      first
      | (obtain rfl := Except.ok.inj h; rfl)
      | exact absurd h (by simp)

theorem getD_lt_256 (buf : List Nat) (hb : ∀ x ∈ buf, x < 256) (off : Nat) :
    buf.getD off 0 < 256 := by
  rw [List.getD_eq_getElem?_getD]
  cases h : buf[off]? with
  | none => simp
  | some x =>
    have : x ∈ buf := List.getElem?_mem h
    simpa using hb x this

/-- Truncating a wide little-endian read to m bytes recovers the m-byte
little-endian read: the garbage in the high bytes is harmless. -/
theorem readLE_mod (buf : List Nat) (hb : ∀ x ∈ buf, x < 256) :
    ∀ (m n off : Nat), m ≤ n →
    readLE n buf off % 256 ^ m = readLE m buf off := by
  intro m
  induction m with
  | zero => intro n off _; simp [readLE, Nat.mod_one]
  | succ m ih =>
    intro n off hmn
    obtain ⟨n', rfl⟩ : ∃ n', n = n' + 1 := ⟨n - 1, by omega⟩
    have hb0 : buf.getD off 0 < 256 := getD_lt_256 buf hb off
    show (buf.getD off 0 + 256 * readLE n' buf (off + 1)) % 256 ^ (m + 1) = _
    have hM : (0 : Nat) < 256 ^ m := Nat.pos_pow_of_pos m (by omega)
    have hsplit : buf.getD off 0 + 256 * readLE n' buf (off + 1) =
        (buf.getD off 0 + 256 * (readLE n' buf (off + 1) % 256 ^ m)) +
          256 ^ (m + 1) * (readLE n' buf (off + 1) / 256 ^ m) := by
      have := Nat.div_add_mod (readLE n' buf (off + 1)) (256 ^ m)
      calc buf.getD off 0 + 256 * readLE n' buf (off + 1)
          = buf.getD off 0 + 256 * (256 ^ m * (readLE n' buf (off + 1) / 256 ^ m)
            + readLE n' buf (off + 1) % 256 ^ m) := by rw [this]
        _ = (buf.getD off 0 + 256 * (readLE n' buf (off + 1) % 256 ^ m)) +
            (256 * 256 ^ m) * (readLE n' buf (off + 1) / 256 ^ m) := by ring
        _ = _ := by rw [pow_succ 256 m, Nat.mul_comm (256 ^ m) 256]
    rw [hsplit, Nat.add_mul_mod_self_left]
    have hlt : buf.getD off 0 + 256 * (readLE n' buf (off + 1) % 256 ^ m) <
        256 ^ (m + 1) := by
      have h1 : readLE n' buf (off + 1) % 256 ^ m < 256 ^ m :=
        Nat.mod_lt _ hM
      have : 256 * (readLE n' buf (off + 1) % 256 ^ m) + 256 ≤
          256 * 256 ^ m := by omega
      rw [pow_succ 256 m, Nat.mul_comm (256 ^ m) 256]
      omega
    rw [Nat.mod_eq_of_lt hlt, ih n' (off + 1) (by omega)]
    rfl

/-- A row-by-row column whose iterator has already run dry makes the
materialization loop fail. -/
theorem make_tuple_columns_error (arrow_row : Nat) :
    ∀ (cols : List CompressedColumnValues) (slot : TupleSlot),
    (∃ cv ∈ cols, ∃ it, cv.iterator = some it ∧ it.data.length ≤ it.pos) →
    make_tuple_columns arrow_row slot cols =
      .error "compressed column out of sync with batch counter" := by
  intro cols
  induction cols with
  | nil => intro slot h; simp at h
  | cons cv rest ih =>
    intro slot ⟨cv', hmem, it', hit', hdone'⟩
    rcases List.mem_cons.mp hmem with rfl | hmem'
    · -- the failing column is the head
      have hnone : it'.data[it'.pos]? = none := by
        rw [List.getElem?_eq_none_iff]
        omega
      simp [make_tuple_columns, make_tuple_column, hit',
        DecompressionIterator.try_next, hnone]
    · -- the failing column is further on; the head either fails with the
      -- same message or succeeds and the failure propagates
      rcases cv with ⟨it, ar, vb, attno⟩
      cases it with
      | some it =>
        cases hvn : it.data[it.pos]? with
        | none =>
          simp [make_tuple_columns, make_tuple_column,
            DecompressionIterator.try_next, hvn]
        | some vn =>
          obtain ⟨v, n⟩ := vn
          simp only [make_tuple_columns, make_tuple_column,
            DecompressionIterator.try_next, hvn, Bool.false_eq_true, if_false]
          rw [ih _ ⟨cv', hmem', it', hit', hdone'⟩]
      | none =>
        cases ar with
        | some a =>
          simp only [make_tuple_columns, make_tuple_column]
          rw [ih _ ⟨cv', hmem', it', hit', hdone'⟩]
        | none =>
          simp only [make_tuple_columns, make_tuple_column]
          rw [ih _ ⟨cv', hmem', it', hit', hdone'⟩]

/-- A row-by-row column whose iterator still has values at the end of
the batch makes the end-of-batch check fail. -/
theorem check_iterators_done_error :
    ∀ cols : List CompressedColumnValues,
    (∃ cv ∈ cols, ∃ it, cv.iterator = some it ∧ it.pos < it.data.length) →
    check_iterators_done cols =
      .error "compressed column out of sync with batch counter" := by
  intro cols
  induction cols with
  | nil => intro h; simp at h
  | cons cv rest ih =>
    intro ⟨cv', hmem, it', hit', hlate'⟩
    rcases List.mem_cons.mp hmem with rfl | hmem'
    · obtain ⟨vn, hvn⟩ : ∃ vn, it'.data[it'.pos]? = some vn :=
        ⟨it'.data[it'.pos], List.getElem?_eq_getElem hlate'⟩
      obtain ⟨v, n⟩ := vn
      simp [check_iterators_done, hit',
        DecompressionIterator.try_next, hvn]
    · rcases cv with ⟨it, ar, vb, attno⟩
      cases it with
      | some it =>
        cases hvn : it.data[it.pos]? with
        | some vn =>
          obtain ⟨v, n⟩ := vn
          simp [check_iterators_done,
            DecompressionIterator.try_next, hvn]
        | none =>
          simp only [check_iterators_done,
            DecompressionIterator.try_next, hvn, Bool.not_true,
            Bool.false_eq_true, if_false]
          rw [ih ⟨cv', hmem', it', hit', hlate'⟩]
      | none =>
        simp only [check_iterators_done]
        rw [ih ⟨cv', hmem', it', hit', hlate'⟩]

/-- A batch state freshly loaded by set_compressed_tuple has its cursor
at row 0. -/
theorem set_ok_next0 (chunk : DecompressChunkState)
    (bs b : DecompressBatchState) (inputs : List ColumnDatum)
    (h : compressed_batch_set_compressed_tuple chunk bs inputs = .ok b) :
    b.next_batch_row = 0 := by
  unfold compressed_batch_set_compressed_tuple at h
  cases hs : setup_columns chunk 0 bs.decompressed_scan_slot
      (chunk.template_columns.zip inputs) with
  | error e => rw [hs] at h; exact absurd h (by simp)
  | ok r =>
    obtain ⟨total, slot, cols⟩ := r
    rw [hs] at h
    simp only at h
    have := apply_vector_quals_ok_proj chunk _ b h
    exact this.2.1

/-! ## The claims -/

/-- C1: For every loaded batch with total_batch_rows > 0, a call to
compressed_batch_advance starting from the current cursor stops at the
first row index at or past the cursor that passes both the
vectorized-qual bitmap and the opaque row filter, leaving the cursor one
past that row and the output slot holding that row's materialized
values; if no such row exists before total_batch_rows, the output slot
is cleared (Exhausted) and the cursor equals total_batch_rows. -/
theorem advance_stops_at_first_passing_row (chunk : DecompressChunkState)
    (total c : Nat) (vqr : Option (List Bool))
    (cols : List CompressedColumnValues) (slot : TupleSlot)
    (hWF : colsWF total c cols = true) (hc : c ≤ total) (h0 : 0 < total) :
    (∀ j, (passing_rows chunk total vqr cols slot c (total - c)).head? = some j →
      compressed_batch_advance chunk ⟨total, c, vqr, cols, slot⟩ =
        .ok ⟨total, j + 1, vqr, columns_at_row cols (j + 1),
             slot_stored (mat_row chunk.reverse total j cols slot)⟩) ∧
    (passing_rows chunk total vqr cols slot c (total - c) = [] →
      ∃ s, compressed_batch_advance chunk ⟨total, c, vqr, cols, slot⟩ =
        .ok ⟨total, total, vqr, columns_at_row cols total, s⟩ ∧
        s.empty = true) := by
  obtain ⟨hlen, hpos⟩ := (colsWF_iff total c cols).mp hWF
  exact advance_loop_eq chunk total vqr (total - c) c cols slot rfl hc hlen hpos

theorem advance_stops_at_first_passing_row_witness :
    compressed_batch_advance chunkW ⟨3, 0, vqrW, colsW, slotW⟩ =
      .ok ⟨3, 2, vqrW, columns_at_row colsW 2,
           slot_stored (mat_row chunkW.reverse 3 1 colsW slotW)⟩ :=
  (advance_stops_at_first_passing_row chunkW 3 0 vqrW colsW slotW
    (by decide) (by decide) (by decide)).1 1 (by decide)

/-- C2: A complete advance-to-exhaustion sequence over a batch pulls
exactly total_batch_rows values from every iterator-form column (the
final state's iterators all sit at position total_batch_rows, one pull
per row whether the row was skipped or materialized; the end-of-batch
done probe does not move them), and bulk-form columns are never pulled
(they come through unchanged). -/
theorem advance_to_exhaustion_pulls_each_row_once
    (chunk : DecompressChunkState) (total : Nat) (vqr : Option (List Bool))
    (cols : List CompressedColumnValues) (slot : TupleSlot)
    (hWF : colsWF total 0 cols = true) :
    ∃ bsF, advance_until_empty chunk (total + 1) ⟨total, 0, vqr, cols, slot⟩ =
        .ok bsF ∧
      bsF.next_batch_row = total ∧
      bsF.compressed_columns = columns_at_row cols total ∧
      (∀ cv ∈ cols, cv.iterator = none → cv ∈ bsF.compressed_columns) := by
  obtain ⟨hlen, hpos⟩ := (colsWF_iff total 0 cols).mp hWF
  obtain ⟨s, hok, _⟩ := advance_until_empty_eq chunk total vqr (total + 1) 0
    cols slot (by omega) (by omega) hlen hpos
  refine ⟨_, hok, rfl, rfl, ?_⟩
  intro cv hmem hit
  show cv ∈ columns_at_row cols total
  unfold columns_at_row
  rw [List.mem_map]
  exact ⟨cv, hmem, by rw [hit]⟩

theorem advance_to_exhaustion_pulls_each_row_once_witness :
    ∃ bsF, advance_until_empty chunkW (3 + 1) ⟨3, 0, vqrW, colsW, slotW⟩ =
        .ok bsF ∧
      bsF.next_batch_row = 3 ∧
      bsF.compressed_columns = columns_at_row colsW 3 ∧
      (∀ cv ∈ colsW, cv.iterator = none → cv ∈ bsF.compressed_columns) :=
  advance_to_exhaustion_pulls_each_row_once chunkW 3 vqrW colsW slotW
    (by decide)

/-- C7: For a bulk-form column, the materializer reads 8 bytes
little-endian (the unaligned widest-width read) at byte offset
value_byte_width * row into the values buffer, stores that whole word as
the Datum (bytes above the true width are garbage, and truncating the
word to the true byte width recovers the narrow value), and sets the
null flag to the negation of the row's validity bit. -/
theorem bulk_column_read_is_truncated_word (arrow_row : Nat)
    (slot : TupleSlot) (a : ArrowArrayData) (w : Int) (attno : Nat)
    (hw : 0 < w.toNat) (hw8 : w.toNat ≤ 8)
    (hb : ∀ x ∈ a.values, x < 256) :
    make_tuple_column arrow_row slot ⟨none, some a, w, attno⟩ =
      .ok (⟨Function.update slot.vals (attno - 1)
              (readLE 8 a.values (w.toNat * arrow_row)),
            Function.update slot.isnull (attno - 1)
              (!arrow_row_is_valid a.validity arrow_row), slot.empty⟩,
           ⟨none, some a, w, attno⟩) ∧
    readLE 8 a.values (w.toNat * arrow_row) % 2 ^ (8 * w.toNat) =
      readLE w.toNat a.values (w.toNat * arrow_row) := by
  constructor
  · rfl
  · have h2 : (2 : Nat) ^ (8 * w.toNat) = 256 ^ w.toNat := by
      rw [Nat.pow_mul]
    rw [h2]
    exact readLE_mod a.values hb w.toNat 8 (w.toNat * arrow_row) hw8

theorem bulk_column_read_is_truncated_word_witness :
    make_tuple_column 1 slotW ⟨none, some arrowA, 4, 1⟩ =
      .ok (⟨Function.update slotW.vals 0 (readLE 8 arrowA.values 4),
            Function.update slotW.isnull 0
              (!arrow_row_is_valid arrowA.validity 1), slotW.empty⟩,
           ⟨none, some arrowA, 4, 1⟩) ∧
    readLE 8 arrowA.values 4 % 2 ^ 32 = readLE 4 arrowA.values 4 :=
  bulk_column_read_is_truncated_word 1 slotW arrowA 4 1
    (by decide) (by decide) (by decide)

/-- C5: Every corruption condition is a fatal error (Except.error, which
aborts processing of the batch and cannot be retried): (1) a
bulk-decoded column whose reported row count differs from the already
established batch row count, (2) a non-positive declared count-column
value, (3) at batch exhaustion an iterator that is not yet done, and
(equally fatal) an iterator that finishes early at a materialized
row. -/
theorem corruption_conditions_are_fatal (chunk : DecompressChunkState) :
    (∀ (total : Nat) (slot : TupleSlot)
      (desc : DecompressChunkColumnDescription)
      (rows : List (Nat × Bool)) (bulk : ArrowArrayData),
      desc.type = ColumnKind.compressed_column →
      (chunk.enable_bulk_decompression && desc.bulk_decompression_supported) = true →
      total ≠ 0 → total ≠ bulk.length →
      setup_one_column chunk total slot desc (.compressed rows bulk) =
        .error "compressed column out of sync with batch counter") ∧
    (∀ (total : Nat) (slot : TupleSlot)
      (desc : DecompressChunkColumnDescription) (c : Int),
      desc.type = ColumnKind.count_column → c ≤ 0 →
      setup_one_column chunk total slot desc (.countdatum c) =
        .error "the compressed data is corrupt: got a segment with length <= 0") ∧
    (∀ (total : Nat) (vqr : Option (List Bool))
      (cols : List CompressedColumnValues) (slot : TupleSlot),
      (∃ cv ∈ cols, ∃ it, cv.iterator = some it ∧ it.pos < it.data.length) →
      compressed_batch_advance chunk ⟨total, total, vqr, cols, slot⟩ =
        .error "compressed column out of sync with batch counter") ∧
    (∀ (total c : Nat) (vqr : Option (List Bool))
      (cols : List CompressedColumnValues) (slot : TupleSlot),
      c < total → vec_bit vqr chunk.reverse total c = true →
      (∃ cv ∈ cols, ∃ it, cv.iterator = some it ∧ it.data.length ≤ it.pos) →
      compressed_batch_advance chunk ⟨total, c, vqr, cols, slot⟩ =
        .error "compressed column out of sync with batch counter") := by
  refine ⟨?_, ?_, ?_, ?_⟩
  · intro total slot desc rows bulk htype hb h0 hne
    rcases desc with ⟨ty, attno, typ, bulk_ok⟩
    simp only at htype
    subst htype
    simp [setup_one_column, hb, h0, hne]
  · intro total slot desc cval htype hcv
    rcases desc with ⟨ty, attno, typ, bulk_ok⟩
    simp only at htype
    subst htype
    simp [setup_one_column, hcv]
  · intro total vqr cols slot hw
    show compressed_batch_advance_loop chunk (total - total) _ = _
    rw [Nat.sub_self]
    show advance_exhaust _ = _
    unfold advance_exhaust
    simp only
    rw [check_iterators_done_error cols hw]
  · intro total c vqr cols slot hc hv hw
    obtain ⟨k, hk⟩ : ∃ k, total - c = k + 1 := ⟨total - c - 1, by omega⟩
    show compressed_batch_advance_loop chunk (total - c) _ = _
    rw [hk]
    show (if _ < _ then _ else _) = _
    rw [if_pos (show c < total from hc)]
    rw [show compressed_batch_vector_qual chunk ⟨total, c, vqr, cols, slot⟩ =
      vec_bit vqr chunk.reverse total c from rfl, hv]
    simp only [Bool.not_true, Bool.false_eq_true, if_false]
    unfold compressed_batch_make_next_tuple
    simp only
    rw [make_tuple_columns_error _ cols slot hw]

theorem corruption_conditions_are_fatal_witness :
    setup_one_column chunkB 3 slotW ⟨.compressed_column, 1, .int8, true⟩
        (.compressed [] ⟨4, [], []⟩) =
      .error "compressed column out of sync with batch counter" ∧
    setup_one_column chunkW 0 slotW ⟨.count_column, 2, .int4, false⟩
        (.countdatum 0) =
      .error "the compressed data is corrupt: got a segment with length <= 0" ∧
    compressed_batch_advance chunkW ⟨2, 2, none, colsW, slotW⟩ =
      .error "compressed column out of sync with batch counter" ∧
    compressed_batch_advance chunkW ⟨2, 0, none, colsX, slotW⟩ =
      .error "compressed column out of sync with batch counter" :=
  ⟨(corruption_conditions_are_fatal chunkB).1 3 slotW _ [] ⟨4, [], []⟩ rfl
      (by decide) (by decide) (by decide),
   (corruption_conditions_are_fatal chunkW).2.1 0 slotW _ 0 rfl (by decide),
   (corruption_conditions_are_fatal chunkW).2.2.1 2 none colsW slotW
      ⟨⟨some ⟨rowsW, 0⟩, none, -1, 1⟩, by decide, ⟨rowsW, 0⟩, rfl, by decide⟩,
   (corruption_conditions_are_fatal chunkW).2.2.2 2 0 none colsX slotW
      (by decide) (by decide)
      ⟨⟨some ⟨[], 0⟩, none, -1, 1⟩, by decide, ⟨[], 0⟩, rfl, by decide⟩⟩

/-- C10 as stated is refuted at a concrete input: the batch bsX has two
rows, both excluded by the vectorized bitmap, over a column whose
iterator is already exhausted (it holds 0 values, desynchronized with
the 2-row batch).  The skipped row raises no error, and contrary to the
claim's "the desynchronization is only detected later, at the next
materialized row or at batch exhaustion", nothing is ever detected: no
row is materialized, the exhaustion check sees a done iterator and
passes, and advance returns an ordinary exhausted batch instead of an
error. -/
theorem skipped_row_desync_counterexample :
    bsX.compressed_columns = [⟨some ⟨[], 0⟩, none, -1, 1⟩] ∧
    bsX.total_batch_rows = 2 ∧
    compressed_batch_vector_qual chunkX bsX = false ∧
    compressed_batch_advance chunkX bsX =
      .ok ⟨2, 2, some [false, false], colsX, slot_cleared slotW⟩ :=
  ⟨rfl, rfl, rfl, rfl⟩

/-- C10 (amended): For every row that the vectorized-qual bitmap
excludes, advance pulls one value from each iterator-form column and
discards the entire result without inspecting its is_done flag: the skip
step is the pure state update skip_row_columns and the loop simply
continues (so an already-exhausted iterator raises no error at a skipped
row, and such an iterator is left unmoved by the skip).  The
desynchronization is detected at the next materialized row, if any,
as a fatal error; if every remaining row is skipped it goes undetected,
because the exhaustion check only fails for iterators that are not yet
done. -/
theorem skipped_row_pull_is_discarded (chunk : DecompressChunkState) :
    (∀ bs : DecompressBatchState,
      bs.next_batch_row < bs.total_batch_rows →
      compressed_batch_vector_qual chunk bs = false →
      compressed_batch_advance chunk bs =
        compressed_batch_advance chunk
          { bs with
            compressed_columns := skip_row_columns bs.compressed_columns
            next_batch_row := bs.next_batch_row + 1 }) ∧
    (∀ (cv : CompressedColumnValues) (it : DecompressionIterator),
      cv.iterator = some it → it.data.length ≤ it.pos →
      skip_row_columns [cv] = [cv]) ∧
    (∀ (total c : Nat) (vqr : Option (List Bool))
      (cols : List CompressedColumnValues) (slot : TupleSlot),
      c < total → vec_bit vqr chunk.reverse total c = true →
      (∃ cv ∈ cols, ∃ it, cv.iterator = some it ∧ it.data.length ≤ it.pos) →
      compressed_batch_advance chunk ⟨total, c, vqr, cols, slot⟩ =
        .error "compressed column out of sync with batch counter") := by
  refine ⟨?_, ?_, ?_⟩
  · intro bs hlt hv
    obtain ⟨k, hk⟩ : ∃ k, bs.total_batch_rows - bs.next_batch_row = k + 1 :=
      ⟨bs.total_batch_rows - bs.next_batch_row - 1, by omega⟩
    show compressed_batch_advance_loop chunk
      (bs.total_batch_rows - bs.next_batch_row) bs = _
    rw [hk]
    show (if _ < _ then _ else _) = _
    rw [if_pos hlt, hv]
    show compressed_batch_advance_loop chunk k _ = _
    show _ = compressed_batch_advance_loop chunk
      (bs.total_batch_rows - (bs.next_batch_row + 1)) _
    rw [show bs.total_batch_rows - (bs.next_batch_row + 1) = k by omega]
  · intro cv it hit hdone
    have hnone : it.data[it.pos]? = none := by
      rw [List.getElem?_eq_none_iff]
      omega
    rcases cv with ⟨it0, ar, vb, attno⟩
    simp only at hit
    subst hit
    simp [skip_row_columns, DecompressionIterator.try_next, hnone]
  · intro total c vqr cols slot hc hv hw
    obtain ⟨k, hk⟩ : ∃ k, total - c = k + 1 := ⟨total - c - 1, by omega⟩
    show compressed_batch_advance_loop chunk (total - c) _ = _
    rw [hk]
    show (if _ < _ then _ else _) = _
    rw [if_pos (show c < total from hc)]
    rw [show compressed_batch_vector_qual chunk ⟨total, c, vqr, cols, slot⟩ =
      vec_bit vqr chunk.reverse total c from rfl, hv]
    simp only [Bool.not_true, Bool.false_eq_true, if_false]
    unfold compressed_batch_make_next_tuple
    simp only
    rw [make_tuple_columns_error _ cols slot hw]

theorem skipped_row_pull_is_discarded_witness :
    compressed_batch_advance chunkX bsX =
      compressed_batch_advance chunkX
        { bsX with
          compressed_columns := skip_row_columns bsX.compressed_columns
          next_batch_row := bsX.next_batch_row + 1 } ∧
    skip_row_columns [(⟨some ⟨[], 0⟩, none, -1, 1⟩ : CompressedColumnValues)] =
      [⟨some ⟨[], 0⟩, none, -1, 1⟩] ∧
    compressed_batch_advance chunkX ⟨2, 0, none, colsX, slotW⟩ =
      .error "compressed column out of sync with batch counter" :=
  ⟨(skipped_row_pull_is_discarded chunkX).1 bsX (by decide) (by decide),
   (skipped_row_pull_is_discarded chunkX).2.1 _ ⟨[], 0⟩ rfl (by decide),
   (skipped_row_pull_is_discarded chunkX).2.2 2 0 none colsX slotW
     (by decide) (by decide)
     ⟨⟨some ⟨[], 0⟩, none, -1, 1⟩, by decide, ⟨[], 0⟩, rfl, by decide⟩⟩

/-- C3: For a vectorized predicate over a compressed column whose stored
value was absent (constant-form default value), the predicate is
evaluated once against a length-1 synthetic Arrow array holding the
default value saved in the output slot; if the default fails the
predicate the entire batch bitmap is cleared to zero, and if it passes
the batch bitmap is returned unchanged. -/
theorem default_column_qual_all_or_nothing (chunk : DecompressChunkState)
    (columns : List CompressedColumnValues) (slot : TupleSlot) (total : Nat)
    (bm : List Bool) (q : VectorQual) (i : Nat)
    (pred : ArrowArrayData → Nat → List Bool → List Bool) (v : ArrowArrayData)
    (hidx : chunk.template_columns.findIdx?
      (fun d => d.output_attno = q.varattno) = some i)
    (htype : (chunk.template_columns.getD i default).type =
      ColumnKind.compressed_column)
    (hiter : (columns.getD i default).iterator = none)
    (harrow : (columns.getD i default).arrow = none)
    (hmk : make_single_value_arrow (chunk.template_columns.getD i default).typid
      (slot.vals (q.varattno - 1)) (slot.isnull (q.varattno - 1)) = .ok v)
    (hpred : chunk.get_vector_const_predicate q.opcode = some pred)
    (hnull : q.constisnull = false) :
    v.length = 1 ∧
    apply_one_vector_qual chunk columns slot total bm q =
      .ok (if (pred v q.constvalue [true]).getD 0 false then bm
           else List.replicate total false) := by
  constructor
  · exact make_single_value_arrow_length _ _ _ v hmk
  · unfold apply_one_vector_qual
    rw [hidx]
    simp only
    rw [if_neg (by rw [htype]; simp)]
    rw [if_neg (by rw [hiter]; simp)]
    rw [harrow, hmk, hpred]
    simp only [hnull, Bool.false_eq_true, if_false]
    exact (apply_ite Except.ok _ bm (List.replicate total false)).symm

theorem default_column_qual_all_or_nothing_witness :
    vV.length = 1 ∧
    apply_one_vector_qual chunkV columnsV slotV 3 [true, true, true]
        ⟨1, 1, 9, false⟩ =
      .ok (if (predV vV 9 [true]).getD 0 false then [true, true, true]
           else List.replicate 3 false) :=
  default_column_qual_all_or_nothing chunkV columnsV slotV 3
    [true, true, true] ⟨1, 1, 9, false⟩ 0 predV vV
    (by decide) (by decide) (by decide) (by decide) rfl rfl rfl

/-- C8: Each precondition violation in vectorized-qual evaluation is a
fatal internal-contract error raised before any predicate result is
applied to the bitmap (the evaluation aborts with Except.error): a
predicate column resolving to a non-compressed column; a predicate
column resolving to an iterator-form compressed column; an operator with
no registered vectorized implementation (bulk and default-value paths);
and a null pushdown constant, in which case the result is the same error
for every registered predicate function, so the predicate is never
invoked. -/
theorem vector_qual_precondition_violations (chunk : DecompressChunkState)
    (columns : List CompressedColumnValues) (slot : TupleSlot) (total : Nat)
    (bm : List Bool) (q : VectorQual) (i : Nat)
    (hidx : chunk.template_columns.findIdx?
      (fun d => d.output_attno = q.varattno) = some i) :
    ((chunk.template_columns.getD i default).type ≠
        ColumnKind.compressed_column →
      apply_one_vector_qual chunk columns slot total bm q =
        .error "only compressed columns are supported in vectorized quals") ∧
    ((chunk.template_columns.getD i default).type =
        ColumnKind.compressed_column →
      (∀ it, (columns.getD i default).iterator = some it →
        apply_one_vector_qual chunk columns slot total bm q =
          .error "only arrow columns are supported in vectorized quals") ∧
      ((columns.getD i default).iterator = none →
        ((∀ a, (columns.getD i default).arrow = some a →
          chunk.get_vector_const_predicate q.opcode = none →
          apply_one_vector_qual chunk columns slot total bm q =
            .error "vectorized predicate not found for postgres predicate") ∧
         ((columns.getD i default).arrow = none →
          ∀ v, make_single_value_arrow
              (chunk.template_columns.getD i default).typid
              (slot.vals (q.varattno - 1)) (slot.isnull (q.varattno - 1)) =
              .ok v →
            (chunk.get_vector_const_predicate q.opcode = none →
              apply_one_vector_qual chunk columns slot total bm q =
                .error "vectorized predicate not found for postgres predicate") ∧
            (∀ pred, chunk.get_vector_const_predicate q.opcode = some pred →
              q.constisnull = true →
              apply_one_vector_qual chunk columns slot total bm q =
                .error "vectorized predicate called for a null value")) ∧
         (∀ a, (columns.getD i default).arrow = some a →
          ∀ pred, chunk.get_vector_const_predicate q.opcode = some pred →
          q.constisnull = true →
          apply_one_vector_qual chunk columns slot total bm q =
            .error "vectorized predicate called for a null value")))) := by
  refine ⟨?_, fun htype => ⟨?_, fun hiter => ⟨?_, fun harrow v hmk => ⟨?_, ?_⟩, ?_⟩⟩⟩
  · intro htype
    unfold apply_one_vector_qual
    rw [hidx]
    simp only
    rw [if_pos (by simpa using htype)]
  · intro it hit
    unfold apply_one_vector_qual
    rw [hidx]
    simp only
    rw [if_neg (by rw [htype]; simp), if_pos (by rw [hit]; simp)]
  · intro a harrow hreg
    unfold apply_one_vector_qual
    rw [hidx]
    simp only
    rw [if_neg (by rw [htype]; simp), if_neg (by rw [hiter]; simp),
      harrow, hreg]
  · intro hreg
    unfold apply_one_vector_qual
    rw [hidx]
    simp only
    rw [if_neg (by rw [htype]; simp), if_neg (by rw [hiter]; simp),
      harrow, hmk, hreg]
  · intro pred hreg hnull
    unfold apply_one_vector_qual
    rw [hidx]
    simp only
    rw [if_neg (by rw [htype]; simp), if_neg (by rw [hiter]; simp),
      harrow, hmk, hreg]
    simp [hnull]
  · intro a harrow pred hreg hnull
    unfold apply_one_vector_qual
    rw [hidx]
    simp only
    rw [if_neg (by rw [htype]; simp), if_neg (by rw [hiter]; simp),
      harrow, hreg]
    simp [hnull]

theorem vector_qual_precondition_violations_witness :
    apply_one_vector_qual chunkV columnsV slotV 3 [true, true, true]
        ⟨2, 1, 9, false⟩ =
      .error "only compressed columns are supported in vectorized quals" ∧
    apply_one_vector_qual chunkV colsW slotV 3 [true, true, true]
        ⟨1, 1, 9, false⟩ =
      .error "only arrow columns are supported in vectorized quals" ∧
    apply_one_vector_qual chunkV columnsA slotV 3 [true, true, true]
        ⟨1, 2, 9, false⟩ =
      .error "vectorized predicate not found for postgres predicate" ∧
    apply_one_vector_qual chunkV columnsV slotV 3 [true, true, true]
        ⟨1, 2, 9, false⟩ =
      .error "vectorized predicate not found for postgres predicate" ∧
    apply_one_vector_qual chunkV columnsV slotV 3 [true, true, true]
        ⟨1, 1, 9, true⟩ =
      .error "vectorized predicate called for a null value" ∧
    apply_one_vector_qual chunkV columnsA slotV 3 [true, true, true]
        ⟨1, 1, 9, true⟩ =
      .error "vectorized predicate called for a null value" :=
  ⟨(vector_qual_precondition_violations chunkV columnsV slotV 3
      [true, true, true] ⟨2, 1, 9, false⟩ 1 (by decide)).1 (by decide),
   ((vector_qual_precondition_violations chunkV colsW slotV 3
      [true, true, true] ⟨1, 1, 9, false⟩ 0 (by decide)).2 (by decide)).1
      ⟨rowsW, 0⟩ rfl,
   (((vector_qual_precondition_violations chunkV columnsA slotV 3
      [true, true, true] ⟨1, 2, 9, false⟩ 0 (by decide)).2 (by decide)).2
      (by decide)).1 arrowA rfl rfl,
   ((((vector_qual_precondition_violations chunkV columnsV slotV 3
      [true, true, true] ⟨1, 2, 9, false⟩ 0 (by decide)).2 (by decide)).2
      (by decide)).2.1 rfl vV rfl).1 rfl,
   ((((vector_qual_precondition_violations chunkV columnsV slotV 3
      [true, true, true] ⟨1, 1, 9, true⟩ 0 (by decide)).2 (by decide)).2
      (by decide)).2.1 rfl vV rfl).2 predV rfl rfl,
   (((vector_qual_precondition_violations chunkV columnsA slotV 3
      [true, true, true] ⟨1, 1, 9, true⟩ 0 (by decide)).2 (by decide)).2
      (by decide)).2.2 arrowA rfl predV rfl rfl⟩

/-- C9: Loading a new compressed batch into an already-used batch state
fully resets the per-batch state before decoding.  (i) Two prior states
that share the output slot (for a scan with vectorized quals, only the
slot matters: the old bitmap is recomputed from scratch; for a scan
without them the bitmap was never allocated, hence the none hypothesis)
load the new tuple to identical states: no cursor, row count, column
source, iterator position or bitmap bit of the previous batch
survives.  (ii) The cursor is reset to 0.  (iii) The new row count and
the rebuilt column sources do not depend on the previous state at all,
not even on its slot. -/
theorem set_compressed_tuple_resets_state (chunk : DecompressChunkState)
    (bs1 bs2 : DecompressBatchState) (inputs : List ColumnDatum)
    (hslot : bs1.decompressed_scan_slot = bs2.decompressed_scan_slot)
    (hvqr : chunk.vectorized_quals = [] →
      bs1.vector_qual_result = none ∧ bs2.vector_qual_result = none) :
    compressed_batch_set_compressed_tuple chunk bs1 inputs =
      compressed_batch_set_compressed_tuple chunk bs2 inputs ∧
    (∀ b, compressed_batch_set_compressed_tuple chunk bs1 inputs = .ok b →
      b.next_batch_row = 0) ∧
    (∀ (bs1' bs2' b1 b2 : DecompressBatchState),
      compressed_batch_set_compressed_tuple chunk bs1' inputs = .ok b1 →
      compressed_batch_set_compressed_tuple chunk bs2' inputs = .ok b2 →
      b1.total_batch_rows = b2.total_batch_rows ∧
      b1.compressed_columns = b2.compressed_columns) := by
  refine ⟨?_, ?_, ?_⟩
  · unfold compressed_batch_set_compressed_tuple
    rw [hslot]
    cases hs : setup_columns chunk 0 bs2.decompressed_scan_slot
        (chunk.template_columns.zip inputs) with
    | error e => rfl
    | ok r =>
      obtain ⟨total, slot, cols⟩ := r
      simp only
      by_cases hq : chunk.vectorized_quals.isEmpty
      · obtain ⟨h1, h2⟩ := hvqr (List.isEmpty_iff.mp hq)
        rw [h1, h2]
      · exact apply_vector_quals_vqr chunk hq total 0
          bs1.vector_qual_result bs2.vector_qual_result cols slot
  · intro b hb
    exact set_ok_next0 chunk bs1 b inputs hb
  · intro bs1' bs2' b1 b2 h1 h2
    unfold compressed_batch_set_compressed_tuple at h1 h2
    have hproj := setup_columns_proj chunk (chunk.template_columns.zip inputs)
      0 bs1'.decompressed_scan_slot bs2'.decompressed_scan_slot
    cases hs1 : setup_columns chunk 0 bs1'.decompressed_scan_slot
        (chunk.template_columns.zip inputs) with
    | error e => rw [hs1] at h1; exact absurd h1 (by simp)
    | ok r1 =>
      obtain ⟨t1, s1, c1⟩ := r1
      rw [hs1] at h1 hproj
      cases hs2 : setup_columns chunk 0 bs2'.decompressed_scan_slot
          (chunk.template_columns.zip inputs) with
      | error e => rw [hs2] at h2; exact absurd h2 (by simp)
      | ok r2 =>
        obtain ⟨t2, s2, c2⟩ := r2
        rw [hs2] at h2 hproj
        simp only [Except.map, Except.ok.injEq, Prod.mk.injEq] at hproj
        obtain ⟨rfl, rfl⟩ := hproj
        simp only at h1 h2
        have p1 := apply_vector_quals_ok_proj chunk _ b1 h1
        have p2 := apply_vector_quals_ok_proj chunk _ b2 h2
        simp only at p1 p2
        exact ⟨p1.1.trans p2.1.symm, p1.2.2.1.trans p2.2.2.1.symm⟩

theorem set_compressed_tuple_resets_state_witness :
    compressed_batch_set_compressed_tuple chunkW
        ⟨5, 3, none, colsW, slotW⟩ inputsW =
      compressed_batch_set_compressed_tuple chunkW
        ⟨0, 7, none, [], slotW⟩ inputsW ∧
    (∀ b, compressed_batch_set_compressed_tuple chunkW
        ⟨5, 3, none, colsW, slotW⟩ inputsW = .ok b →
      b.next_batch_row = 0) ∧
    (∀ (bs1' bs2' b1 b2 : DecompressBatchState),
      compressed_batch_set_compressed_tuple chunkW bs1' inputsW = .ok b1 →
      compressed_batch_set_compressed_tuple chunkW bs2' inputsW = .ok b2 →
      b1.total_batch_rows = b2.total_batch_rows ∧
      b1.compressed_columns = b2.compressed_columns) :=
  set_compressed_tuple_resets_state chunkW ⟨5, 3, none, colsW, slotW⟩
    ⟨0, 7, none, [], slotW⟩ inputsW rfl (fun _ => ⟨rfl, rfl⟩)

/-- C4: With the cursor at 0 on a nonempty batch,
compressed_batch_save_first_tuple materializes row 0 unconditionally and
returns it as the saved copy regardless of the filters; afterwards the
batch continues from row 1: if row 0 itself passed both filters it is
left in the output slot with the cursor at 1 (row 0 is emitted), and
otherwise the state is positioned exactly at the first passing row at or
past row 1 (or exhausted), so row 0 is never re-emitted. -/
theorem save_first_tuple_copies_row0 (chunk : DecompressChunkState)
    (total : Nat) (vqr : Option (List Bool))
    (cols : List CompressedColumnValues) (slot : TupleSlot)
    (hWF : colsWF total 0 cols = true) (h0 : 0 < total) :
    ∃ bsF, compressed_batch_save_first_tuple chunk ⟨total, 0, vqr, cols, slot⟩ =
        .ok (bsF, slot_stored (mat_row chunk.reverse total 0 cols slot)) ∧
      (row_passes chunk total vqr cols slot 0 = true →
        bsF = ⟨total, 1, vqr, columns_at_row cols 1,
               slot_stored (mat_row chunk.reverse total 0 cols slot)⟩) ∧
      (row_passes chunk total vqr cols slot 0 = false →
        (∀ j, (passing_rows chunk total vqr cols slot 1 (total - 1)).head? =
            some j →
          bsF = ⟨total, j + 1, vqr, columns_at_row cols (j + 1),
                 slot_stored (mat_row chunk.reverse total j cols slot)⟩) ∧
        (passing_rows chunk total vqr cols slot 1 (total - 1) = [] →
          bsF.next_batch_row = total ∧
          bsF.decompressed_scan_slot.empty = true ∧
          bsF.compressed_columns = columns_at_row cols total)) := by
  obtain ⟨hlen, hpos⟩ := (colsWF_iff total 0 cols).mp hWF
  have hmk := compressed_batch_make_next_tuple_eq chunk total 0 vqr cols slot
    h0 hlen hpos
  have hlen1 := colsLenWF_at_row total cols 1 hlen
  have hpos1 := colsPosWF_at_row cols 1
  have hqp : (compressed_batch_vector_qual chunk
        ⟨total, 0, vqr, columns_at_row cols 1,
         slot_stored (mat_row chunk.reverse total 0 cols slot)⟩ &&
      compressed_batch_postgres_qual chunk
        ⟨total, 0, vqr, columns_at_row cols 1,
         slot_stored (mat_row chunk.reverse total 0 cols slot)⟩) =
      row_passes chunk total vqr cols slot 0 := by
    unfold compressed_batch_vector_qual compressed_batch_postgres_qual
      row_passes
    cases chunk.qual with
    | none => rfl
    | some q => rfl
  unfold compressed_batch_save_first_tuple
  rw [hmk]
  simp only [hqp]
  cases hrp : row_passes chunk total vqr cols slot 0 with
  | true =>
    simp only [Bool.not_true, Bool.false_eq_true, if_false]
    refine ⟨⟨total, 1, vqr, columns_at_row cols 1,
      slot_stored (mat_row chunk.reverse total 0 cols slot)⟩, rfl, fun _ => rfl,
      fun hf => absurd hf (by simp)⟩
  | false =>
    simp only [Bool.not_false, if_true]
    have hadv := advance_loop_eq chunk total vqr (total - 1) 1
      (columns_at_row cols 1)
      (slot_stored (mat_row chunk.reverse total 0 cols slot)) rfl (by omega)
      hlen1 hpos1
    rw [passing_rows_columns_at_row,
      passing_rows_base chunk total vqr cols slot 0 hlen h0 (total - 1) 1
        (by omega)] at hadv
    cases hl : passing_rows chunk total vqr cols slot 1 (total - 1) with
    | cons j rest =>
      have hj := hadv.1 j (by rw [hl]; rfl)
      have hjmem := passing_rows_mem chunk total vqr cols slot (total - 1) 1 j
        (by rw [hl]; exact List.mem_cons_self _ _)
      rw [mat_row_columns_at_row, columns_at_row_at_row,
        stored_mat_row_overwrite chunk.reverse total j 0 cols slot hlen
          (by omega) h0] at hj
      refine ⟨⟨total, j + 1, vqr, columns_at_row cols (j + 1),
        slot_stored (mat_row chunk.reverse total j cols slot)⟩, ?_,
        fun ht => absurd ht (by simp [hrp]), fun _ => ⟨?_, ?_⟩⟩
      · show (match compressed_batch_advance chunk
            ⟨total, 1, vqr, columns_at_row cols 1,
             slot_stored (mat_row chunk.reverse total 0 cols slot)⟩ with
          | Except.error e => Except.error e
          | Except.ok bs3 => Except.ok (bs3, _)) = _
        rw [show compressed_batch_advance chunk
            ⟨total, 1, vqr, columns_at_row cols 1,
             slot_stored (mat_row chunk.reverse total 0 cols slot)⟩ =
          compressed_batch_advance_loop chunk (total - 1)
            ⟨total, 1, vqr, columns_at_row cols 1,
             slot_stored (mat_row chunk.reverse total 0 cols slot)⟩ from rfl,
          hj]
        rfl
      · intro j' hj'
        simp only [List.head?_cons, Option.some.injEq] at hj'
        rw [← hj']
      · intro hnil
        simp at hnil
    | nil =>
      obtain ⟨s, hok, hemp⟩ := hadv.2 hl
      rw [columns_at_row_at_row] at hok
      refine ⟨⟨total, total, vqr, columns_at_row cols total, s⟩, ?_,
        fun ht => absurd ht (by simp [hrp]), fun _ =>
          ⟨fun j' hj' => by simp at hj',
           fun _ => ⟨rfl, hemp, rfl⟩⟩⟩
      show (match compressed_batch_advance chunk
          ⟨total, 1, vqr, columns_at_row cols 1,
           slot_stored (mat_row chunk.reverse total 0 cols slot)⟩ with
        | Except.error e => Except.error e
        | Except.ok bs3 => Except.ok (bs3, _)) = _
      rw [show compressed_batch_advance chunk
          ⟨total, 1, vqr, columns_at_row cols 1,
           slot_stored (mat_row chunk.reverse total 0 cols slot)⟩ =
        compressed_batch_advance_loop chunk (total - 1)
          ⟨total, 1, vqr, columns_at_row cols 1,
           slot_stored (mat_row chunk.reverse total 0 cols slot)⟩ from rfl,
        hok]
      rfl

theorem save_first_tuple_copies_row0_witness :
    ∃ bsF, compressed_batch_save_first_tuple chunkW ⟨3, 0, vqrW, colsW, slotW⟩ =
        .ok (bsF, slot_stored (mat_row chunkW.reverse 3 0 colsW slotW)) ∧
      (row_passes chunkW 3 vqrW colsW slotW 0 = true →
        bsF = ⟨3, 1, vqrW, columns_at_row colsW 1,
               slot_stored (mat_row chunkW.reverse 3 0 colsW slotW)⟩) ∧
      (row_passes chunkW 3 vqrW colsW slotW 0 = false →
        (∀ j, (passing_rows chunkW 3 vqrW colsW slotW 1 (3 - 1)).head? =
            some j →
          bsF = ⟨3, j + 1, vqrW, columns_at_row colsW (j + 1),
                 slot_stored (mat_row chunkW.reverse 3 j colsW slotW)⟩) ∧
        (passing_rows chunkW 3 vqrW colsW slotW 1 (3 - 1) = [] →
          bsF.next_batch_row = 3 ∧
          bsF.decompressed_scan_slot.empty = true ∧
          bsF.compressed_columns = columns_at_row colsW 3)) :=
  save_first_tuple_copies_row0 chunkW 3 vqrW colsW slotW (by decide) (by decide)

/-- C6: The logical index used for bulk-form random access and for the
vectorized-bitmap bit lookup is total - 1 - cursor when the scan is
reverse and the cursor itself otherwise; and loading the same compressed
batch with reverse configured and advancing it to exhaustion produces
exactly the reverse of the row sequence produced by the forward
traversal under the same filters. -/
theorem reverse_traversal_is_reverse_of_forward (chunk : DecompressChunkState)
    (hrev : chunk.reverse = false) (bs : DecompressBatchState)
    (inputs : List ColumnDatum) (bf : DecompressBatchState)
    (hset : compressed_batch_set_compressed_tuple chunk bs inputs = .ok bf)
    (hWF : colsWF bf.total_batch_rows 0 bf.compressed_columns = true) :
    (∀ t c : Nat, arrowRowOf true t c = t - 1 - c ∧ arrowRowOf false t c = c) ∧
    ∃ br l,
      compressed_batch_set_compressed_tuple { chunk with reverse := true } bs
        inputs = .ok br ∧
      collect_rows chunk (bf.total_batch_rows + 1) bf = .ok l ∧
      collect_rows { chunk with reverse := true } (bf.total_batch_rows + 1) br =
        .ok l.reverse := by
  refine ⟨fun t c => ⟨rfl, rfl⟩, ?_⟩
  obtain ⟨T, N, V, C, S⟩ := bf
  have hnext := set_ok_next0 chunk bs ⟨T, N, V, C, S⟩ inputs hset
  simp only at hnext
  subst hnext
  simp only at hWF
  obtain ⟨hlen, hpos⟩ := (colsWF_iff T 0 C).mp hWF
  have hsetr := compressed_batch_set_compressed_tuple_reverse chunk hrev bs
    inputs
  rw [hset] at hsetr
  simp only [Except.map] at hsetr
  have hf := collect_rows_eq chunk T V (T + 1) 0 C S (by omega) (by omega)
    hlen hpos
  have hr := collect_rows_eq { chunk with reverse := true } T V (T + 1) 0
    (reverse_columns C) S (by omega) (by omega)
    (colsLenWF_reverse T C hlen) (colsPosWF_reverse 0 C hpos)
  rw [Nat.sub_zero] at hf hr
  refine ⟨_, _, hsetr, hf, ?_⟩
  rw [hr]
  exact congrArg Except.ok (passing_map_reverse chunk hrev T V C S hlen)

theorem reverse_traversal_is_reverse_of_forward_witness :
    (∀ t c : Nat, arrowRowOf true t c = t - 1 - c ∧ arrowRowOf false t c = c) ∧
    ∃ br l,
      compressed_batch_set_compressed_tuple { chunkW with reverse := true }
        ⟨0, 0, none, [], slotW⟩ inputsW = .ok br ∧
      collect_rows chunkW (3 + 1) ⟨3, 0, none, colsW, slotW⟩ = .ok l ∧
      collect_rows { chunkW with reverse := true } (3 + 1) br = .ok l.reverse :=
  reverse_traversal_is_reverse_of_forward chunkW rfl ⟨0, 0, none, [], slotW⟩
    inputsW ⟨3, 0, none, colsW, slotW⟩ rfl (by decide)

end CompressedBatch
